import Mathlib

/-!
Verification of the saliency-based color-palette extraction pipeline.

This file gives a shallow embedding of the core of the repository
(`app/core/distance_metrics.py`, `app/core/palette_extraction.py`,
`app/core/saliency.py`, `app/core/utils.py`) and proves or refutes the
frozen specification claims about it.

Conventions of the embedding:
* Python floats are modelled by exact arithmetic: rationals (`ℚ`) wherever
  the code computes field operations, and reals (`ℝ`) where `sqrt` appears.
* `numpy` arrays are lists (flattened, row-major) or `Fin`-indexed grids.
* A weighted distance value `w * sqrt d` is represented during the
  selection loops by the pair `(w, d) : ℚ × ℚ`; the boolean comparator
  `klt` decides the order of the represented real values exactly
  (`klt_iff` below), so the embedded selection performs precisely the
  comparisons the source performs on real numbers.
* Fallible numpy operations (boolean-mask indexing with mismatched
  lengths, reductions over empty arrays) are modelled with `Except`.
* The per-pixel color conversions performed inside OpenCV
  (`cv2.cvtColor`, grayscale conversion) are external library code, not
  part of this repository; the pipeline is parametrized over them and the
  theorems quantify over all of them.  Concrete placeholder conversions
  are provided for witnesses.
-/

/-- A CIELab sample `(L, a, b)`, as produced by `rgb_to_lab`. -/
abbrev Lab : Type := ℚ × ℚ × ℚ

/-- Junk Lab sample used as an out-of-range default for list indexing. -/
def labJunk : Lab := (0, 0, 0)

/-- Junk candidate entry (Lab sample plus saliency weight). -/
def junkE : Lab × ℚ := (labJunk, 0)

/-- Squared base distance of `weighted_lab_distance` (distance_metrics.py,
lines 20-26): `(0.5*(L_i-L_j))^2 + (a_i-a_j)^2 + (b_i-b_j)^2`. -/
def dsq (p q : Lab) : ℚ :=
  (0.5 * (p.1 - q.1)) ^ 2 + (p.2.1 - q.2.1) ^ 2 + (p.2.2 - q.2.2) ^ 2

/-- Real value represented by a weighted-distance key `(w, d)`,
namely `w * sqrt d`. -/
noncomputable def kval (k : ℚ × ℚ) : ℝ :=
  (k.1 : ℝ) * Real.sqrt (k.2 : ℝ)

/-- Exact boolean comparator deciding `kval a < kval b`
(see `klt_iff`).  This is how the embedded selection loops perform the
float comparisons of the source on represented values `w * sqrt d`. -/
def klt (a b : ℚ × ℚ) : Bool :=
  if a.1 < 0 ∧ 0 < a.2 then
    (if b.1 < 0 ∧ 0 < b.2 then decide (b.1 ^ 2 * b.2 < a.1 ^ 2 * a.2) else true)
  else if 0 < a.1 ∧ 0 < a.2 then
    (if 0 < b.1 ∧ 0 < b.2 then decide (a.1 ^ 2 * a.2 < b.1 ^ 2 * b.2) else false)
  else
    decide (0 < b.1 ∧ 0 < b.2)

/-- `weighted_lab_distance(p_i, p_j, w_pi)` from distance_metrics.py:
`w_pi * sqrt((0.5*dL)^2 + da^2 + db^2)`. -/
noncomputable def weighted_lab_distance (p q : Lab) (w : ℚ) : ℝ :=
  (w : ℝ) * Real.sqrt ((dsq p q : ℚ) : ℝ)

/-- Boolean strict-order comparator on plain rationals (saliency values). -/
def qlt (a b : ℚ) : Bool := decide (a < b)

/-- Loop of `np.argmax`: scan the remaining list keeping the current best
index/key, replacing it only on a strictly larger key (hence the first
occurrence of the maximum wins). -/
def argmaxGo {κ : Type} (ltb : κ → κ → Bool) : List κ → ℕ → ℕ × κ → ℕ × κ
  | [], _, acc => acc
  | k :: t, i, acc => argmaxGo ltb t (i + 1) (if ltb acc.2 k then (i, k) else acc)

/-- `np.argmax` over a list of keys: index of the first maximal element
(`0` on the empty list, where numpy raises instead; callers guard). -/
def argmaxFold {κ : Type} (ltb : κ → κ → Bool) : List κ → ℕ
  | [] => 0
  | k :: t => (argmaxGo ltb t 1 (0, k)).1

/-- Key of `min([weighted_lab_distance(candidate, s[0], s[1]) for s in selected])`
(palette_extraction.py line 73): python's `min` keeps the current minimum
and replaces it only on a strictly smaller element. -/
def candKey (sel : List (Lab × ℚ)) (c : Lab) : ℚ × ℚ :=
  match sel.map (fun s => (s.2, dsq c s.1)) with
  | [] => (0, 0)
  | k :: t => t.foldl (fun acc x => if klt x acc then x else acc) k

/-- Real-valued form of the same quantity: the minimum over the selected
entries `s` of `weighted_lab_distance c s.color s.weight`. -/
noncomputable def minWD (sel : List (Lab × ℚ)) (c : Lab) : ℝ :=
  match sel.map (fun s => weighted_lab_distance c s.1 s.2) with
  | [] => 0
  | v :: t => t.foldl min v

/-- Inner loop of the greedy rounds (palette_extraction.py lines 66-79):
running maximum `max_min_dist` starts at `-1` (the key `(-1, 1)` denotes
the real number `-1`), and a candidate replaces the current best exactly
when its minimal distance is strictly larger. -/
def pickGo (sel : List (Lab × ℚ)) :
    List (Lab × ℚ) → ℕ → ℚ × ℚ → Option (ℕ × Lab × ℚ) → Option (ℕ × Lab × ℚ)
  | [], _, _, best => best
  | c :: t, i, mk, best =>
    let ck := candKey sel c.1
    if klt mk ck then pickGo sel t (i + 1) ck (some (i, c))
    else pickGo sel t (i + 1) mk best

/-- One greedy round's scan over the candidate pool. -/
def pickBest (sel cands : List (Lab × ℚ)) : Option (ℕ × Lab × ℚ) :=
  pickGo sel cands 0 (-1, 1) none

/-- One greedy round (palette_extraction.py lines 65-85): append the best
candidate to `selected` and delete it from the pool; if no candidate
strictly improved on `-1`, leave the state unchanged
(`if best_pixel is not None`). -/
def greedyStep (st : List (Lab × ℚ) × List (Lab × ℚ)) :
    List (Lab × ℚ) × List (Lab × ℚ) :=
  match pickBest st.1 st.2 with
  | some (i, c) => (st.1 ++ [c], st.2.eraseIdx i)
  | none => st

/-- Index of the second seed: `np.argmax([weighted_lab_distance(p, p1, w1)
for p in pixels])` (palette_extraction.py lines 49-50). -/
def seedTwoIdx (pixels : List Lab) (p1 : Lab) (w1 : ℚ) : ℕ :=
  argmaxFold klt (pixels.map (fun p => (w1, dsq p p1)))

/-- Removal of the two seed indices from the candidate pool
(`mask_remaining[selected_indices] = False`, lines 58-61). -/
def removeSeeds (pool : List (Lab × ℚ)) (i1 i2 : ℕ) : List (Lab × ℚ) :=
  (pool.enum.filter (fun x => !(x.1 == i1 || x.1 == i2))).map Prod.snd

/-- The selection stage of `extract_palette` (palette_extraction.py lines
42-85): seed 1 by maximal saliency, seed 2 by maximal weighted distance
from seed 1, removal of both seed indices, then three greedy max-min
rounds (`for _ in range(2, 5)`). -/
def selectColors (pixels : List Lab) (sal : List ℚ) : List (Lab × ℚ) :=
  let i1 := argmaxFold qlt sal
  let p1 := pixels.getD i1 labJunk
  let w1 := sal.getD i1 0
  let i2 := seedTwoIdx pixels p1 w1
  let p2 := pixels.getD i2 labJunk
  let w2 := sal.getD i2 0
  let sel0 := [(p1, w1), (p2, w2)]
  let cands0 := removeSeeds (pixels.zip sal) i1 i2
  (greedyStep (greedyStep (greedyStep (sel0, cands0)))).1

/-- `i` is the position of the first maximum of `v` on `[0, n)`. -/
def FirstArgmax {α : Type} [LinearOrder α] (v : ℕ → α) (n i : ℕ) : Prop :=
  i < n ∧ (∀ j, j < n → v j ≤ v i) ∧ (∀ j, j < i → v j < v i)

/-- The spec's description of one greedy round: the chosen candidate `c`
sits at position `i` of the pool and is the first candidate maximizing the
minimum weighted distance to the already-selected entries. -/
def GreedyPick (sel pool : List (Lab × ℚ)) (i : ℕ) (c : Lab × ℚ) : Prop :=
  c = pool.getD i junkE ∧
  FirstArgmax (fun j => minWD sel ((pool.getD j junkE).1)) pool.length i

/-- The spec's step-by-step description of the whole selection order
(spec §4.5, steps 1-4): seed 1 is the first candidate of maximal saliency
weight; seed 2 the first candidate of maximal weighted distance from
seed 1 (weighted by seed 1's weight); both seed indices are removed; then
three greedy rounds each take the first remaining candidate maximizing
its minimal weighted distance to the already-selected entries and remove
it from the pool. -/
def SelSpec (pixels : List Lab) (sal : List ℚ) : Prop :=
  ∃ i1 i2 i3 i4 i5,
    FirstArgmax (fun j => sal.getD j 0) sal.length i1 ∧
    FirstArgmax
      (fun j => weighted_lab_distance (pixels.getD j labJunk)
        (pixels.getD i1 labJunk) (sal.getD i1 0)) pixels.length i2 ∧
    (let s1 : Lab × ℚ := (pixels.getD i1 labJunk, sal.getD i1 0)
     let s2 : Lab × ℚ := (pixels.getD i2 labJunk, sal.getD i2 0)
     let pool0 := removeSeeds (pixels.zip sal) i1 i2
     let c3 := pool0.getD i3 junkE
     let pool1 := pool0.eraseIdx i3
     let c4 := pool1.getD i4 junkE
     let pool2 := pool1.eraseIdx i4
     let c5 := pool2.getD i5 junkE
     GreedyPick [s1, s2] pool0 i3 c3 ∧
     GreedyPick [s1, s2, c3] pool1 i4 c4 ∧
     GreedyPick [s1, s2, c3, c4] pool2 i5 c5 ∧
     selectColors pixels sal = [s1, s2, c3, c4, c5])

/-- All unordered pairs of elements of a list (each pair once, in scan
order). -/
def pairList {α : Type} : List α → List (α × α)
  | [] => []
  | x :: t => (t.map (fun y => (x, y))) ++ pairList t

/-- Minimum of a list of rationals (0 for the empty list). -/
def minFoldQ : List ℚ → ℚ
  | [] => 0
  | v :: t => t.foldl min v

/-- Minimum of a list of reals (0 for the empty list). -/
noncomputable def minFoldR : List ℝ → ℝ
  | [] => 0
  | v :: t => t.foldl min v

/-- Minimum over all pairs of the squared base distance (rational form,
used to evaluate `minPairWD` on weight-one pools). -/
def minPairDsq (l : List (Lab × ℚ)) : ℚ :=
  minFoldQ ((pairList l).map (fun pq => dsq pq.1.1 pq.2.1))

/-- Minimum pairwise weighted distance of a palette: the minimum over all
pairs `(p, q)` (in scan order) of `weighted_lab_distance p q w_p`. -/
noncomputable def minPairWD (l : List (Lab × ℚ)) : ℝ :=
  minFoldR ((pairList l).map (fun pq => weighted_lab_distance pq.1.1 pq.2.1 pq.1.2))

/-- Insert into an ascending list (structural model of numpy's ascending
sort used by `np.percentile`). -/
def insertSorted (x : ℚ) : List ℚ → List ℚ
  | [] => [x]
  | y :: t => if x ≤ y then x :: y :: t else y :: insertSorted x t

/-- Ascending sort of the saliency values. -/
def sortAsc : List ℚ → List ℚ
  | [] => []
  | x :: t => insertSorted x (sortAsc t)

/-- `np.percentile(xs, q)` with the default linear interpolation: sort
ascending, take position `q/100 * (n-1)` and interpolate linearly between
the two neighboring order statistics. -/
def percentile (xs : List ℚ) (q : ℚ) : ℚ :=
  let s := sortAsc xs
  let pos : ℚ := q * ((xs.length : ℚ) - 1) / 100
  let k : ℕ := (⌊pos⌋).toNat
  let frac : ℚ := pos - (⌊pos⌋ : ℚ)
  s.getD k 0 + frac * (s.getD (k + 1) 0 - s.getD k 0)

/-- Numpy boolean-mask indexing `xs[mask]`: keeps the entries at `true`
positions, and raises when the mask length does not match the array
length. -/
def boolIndex {α : Type} (xs : List α) (mask : List Bool) : Except String (List α) :=
  if xs.length = mask.length then
    Except.ok (((xs.zip mask).filter (fun p => p.2)).map Prod.fst)
  else Except.error ("boolean index did not match indexed array along dimension 0")

/-- The sampling stage of `extract_palette` (palette_extraction.py lines
19-40): percentile band filter, fallback to the 70th percentile when
fewer than 250 pixels survive, and random sampling from the full
population when fewer than 5 remain.  The random indices numpy would
draw (`np.random.choice(len(all_pixels), size=min(1000, len(all_pixels)),
replace=False)`) are supplied by the injectable oracle `rnd`
(spec §9 asks for exactly this injection point). -/
def samplePixels (pixels : List Lab) (sal : List ℚ) (rnd : List ℕ) :
    Except String (List Lab × List ℚ) :=
  if sal.isEmpty then
    Except.error ("zero-size array to reduction operation")
  else
    let low := percentile sal 20
    let high := percentile sal 80
    let mask0 := sal.map (fun s => decide (low < s) && decide (s < high))
    let mask :=
      if mask0.count true < 250 then
        (let t := percentile sal 70
         sal.map (fun s => decide (t < s)))
      else mask0
    match boolIndex pixels mask, boolIndex sal mask with
    | Except.ok px, Except.ok sl =>
        if px.length < 5 then
          Except.ok (rnd.map (fun i => pixels.getD i labJunk),
                     rnd.map (fun i => sal.getD i 0))
        else Except.ok (px, sl)
    | Except.error e, _ => Except.error e
    | Except.ok _, Except.error e => Except.error e

/-- An 8-bit RGB pixel (components in `[0, 255]`). -/
structure RGB8 where
  r : ℕ
  g : ℕ
  b : ℕ
deriving DecidableEq

/-- One output record of `extract_palette`: `{"RGB": ..., "Weight": ...}`. -/
structure PaletteEntry where
  RGB : RGB8
  Weight : ℚ
deriving DecidableEq

/-- Rescaling of utils.rgb_to_lab (lines 20-23): OpenCV's 8-bit Lab triple
`(L, a, b)` in `[0,255]^3` becomes `(L*100/255, a-128, b-128)`. -/
def labScale (t : ℕ × ℕ × ℕ) : Lab :=
  ((t.1 : ℚ) * 100 / 255, (t.2.1 : ℚ) - 128, (t.2.2 : ℚ) - 128)

/-- `np.clip(x, 0, 255)`. -/
def clip255 (x : ℚ) : ℚ := max 0 (min 255 x)

/-- Clip to `[0,255]` then cast to `uint8` (`astype(np.uint8)` truncates;
after the clip the value is nonnegative, so truncation is the floor). -/
def labU8 (x : ℚ) : ℕ := (⌊clip255 x⌋).toNat

/-- utils.lab_to_rgb on one sample: rescale to OpenCV's 8-bit Lab ranges,
clip all channels to `[0,255]`, cast to `uint8`, then apply the inverse
per-pixel color transform `cvtBack` (OpenCV's `COLOR_LAB2RGB`, external
library code over which the theorems are parametric). -/
def lab_to_rgb (cvtBack : ℕ × ℕ × ℕ → RGB8) (p : Lab) : RGB8 :=
  cvtBack (labU8 (p.1 * 255 / 100), labU8 (p.2.1 + 128), labU8 (p.2.2 + 128))

/-- A `h × w` grid of pixels, row-major. -/
abbrev Image (α : Type) (h w : ℕ) : Type := Fin h → Fin w → α

/-- Row-major flattening (`reshape(-1, 3)` / `flatten()`). -/
def flattenImg {α : Type} {h w : ℕ} (f : Image α h w) : List α :=
  (List.finRange h).flatMap (fun i => (List.finRange w).map (fun j => f i j))

/-- A `1 × n` image holding the given list of pixels. -/
def listImage {α : Type} (xs : List α) : Image α 1 xs.length :=
  fun _ j => xs.get j

/-- An `n × 1` image holding the given list of pixels. -/
def colImage {α : Type} (xs : List α) : Image α xs.length 1 :=
  fun i _ => xs.get i

/-- `extract_palette(image, saliency_map)` (palette_extraction.py):
convert to Lab (per-pixel OpenCV conversion `cvt2lab` followed by the
rescale of utils.rgb_to_lab), flatten both arrays, sample candidates,
select five colors, convert back to RGB and pair each with its weight.
`rnd` is the injectable random-index oracle of the sampling fallback. -/
def extract_palette {h w hs ws : ℕ} (cvt2lab : RGB8 → ℕ × ℕ × ℕ)
    (cvtBack : ℕ × ℕ × ℕ → RGB8) (rnd : List ℕ)
    (image : Image RGB8 h w) (saliency_map : Image ℚ hs ws) :
    Except String (List PaletteEntry) :=
  let labFlat := (flattenImg image).map (fun c => labScale (cvt2lab c))
  let salFlat := flattenImg saliency_map
  match samplePixels labFlat salFlat rnd with
  | Except.error e => Except.error e
  | Except.ok (px, sl) =>
      if px.isEmpty then
        Except.error ("attempt to get argmax of an empty sequence")
      else
        Except.ok ((selectColors px sl).map
          (fun s => { RGB := lab_to_rgb cvtBack s.1, Weight := s.2 }))

/-- Whether an `Except` value is a success. -/
def isOkE {ε α : Type} : Except ε α → Bool
  | Except.ok _ => true
  | Except.error _ => false

/-- Border reflection `BORDER_REFLECT_101` (OpenCV's default) mapping an
out-of-range coordinate back into `[0, n)`; the exact value never matters
for the claims below, only that it is a valid index. -/
def reflect101 {n : ℕ} (j : Fin n) (d : ℤ) : Fin n :=
  if h : n ≤ 1 then ⟨0, j.pos⟩
  else
    Fin.mk
      (if ((j : ℤ) + d) % (2 * (n : ℤ) - 2) < (n : ℤ)
       then (((j : ℤ) + d) % (2 * (n : ℤ) - 2)).toNat
       else ((2 * (n : ℤ) - 2) - ((j : ℤ) + d) % (2 * (n : ℤ) - 2)).toNat)
      (by
        have hp : (0 : ℤ) < 2 * (n : ℤ) - 2 := by
          have : 2 ≤ n := by omega
          have : (2 : ℤ) ≤ (n : ℤ) := by exact_mod_cast this
          omega
        have h0 := Int.emod_nonneg ((j : ℤ) + d) (by omega : 2 * (n : ℤ) - 2 ≠ 0)
        have h1 := Int.emod_lt_of_pos ((j : ℤ) + d) hp
        split <;> omega)

/-- Horizontal pass of a separable convolution with reflected borders. -/
def convH {h w : ℕ} (ker : List (ℤ × ℚ)) (f : Image ℝ h w) : Image ℝ h w :=
  fun i j => (ker.map (fun kv => (kv.2 : ℝ) * f i (reflect101 j kv.1))).sum

/-- Vertical pass of a separable convolution with reflected borders. -/
def convV {h w : ℕ} (ker : List (ℤ × ℚ)) (f : Image ℝ h w) : Image ℝ h w :=
  fun i j => (ker.map (fun kv => (kv.2 : ℝ) * f (reflect101 i kv.1) j)).sum

/-- Separable 2-D Gaussian blur. -/
def blurWith {h w : ℕ} (ker : List (ℤ × ℚ)) (f : Image ℝ h w) : Image ℝ h w :=
  convV ker (convH ker f)

/-- OpenCV's fixed 5-tap Gaussian kernel for `ksize = 5`, `sigma = 0`:
`[1, 4, 6, 4, 1] / 16`. -/
def g5 : List (ℤ × ℚ) := [(-2, 1/16), (-1, 4/16), (0, 6/16), (1, 4/16), (2, 1/16)]

/-- OpenCV's fixed 3-tap Gaussian kernel for `ksize = 3`, `sigma = 0`:
`[1, 2, 1] / 4`. -/
def g3 : List (ℤ × ℚ) := [(-1, 1/4), (0, 2/4), (1, 1/4)]

/-- `cv2.Laplacian(src, CV_64F)` with the default aperture: convolution
with `[[0,1,0],[1,-4,1],[0,1,0]]` and reflected borders. -/
def laplacian {h w : ℕ} (f : Image ℝ h w) : Image ℝ h w :=
  fun i j =>
    f (reflect101 i (-1)) j + f (reflect101 i 1) j +
      f i (reflect101 j (-1)) + f i (reflect101 j 1) - 4 * f i j

open Classical in
/-- `cv2.normalize(src, None, 0, 1, cv2.NORM_MINMAX)`: affine rescale of
the range onto `[0, 1]`; when the range is degenerate (`max = min`)
OpenCV uses scale `0` and shift `alpha`, so a flat field maps to the
constant `0`. -/
noncomputable def cvNormalize {h w : ℕ} (f : Image ℝ h w) : Image ℝ h w :=
  fun i j =>
    let M := Finset.univ.sup' ⟨(i, j), Finset.mem_univ _⟩
      (fun p : Fin h × Fin w => f p.1 p.2)
    let m := Finset.univ.inf' ⟨(i, j), Finset.mem_univ _⟩
      (fun p : Fin h × Fin w => f p.1 p.2)
    if M = m then 0 else (f i j - m) / (M - m)

/-- `frequency_tuned_saliency` (saliency.py lines 7-23): convert to Lab
(per-pixel conversion `cvtL`, OpenCV-internal), take the global mean Lab
color, blur with the 5-tap Gaussian, take the per-pixel Euclidean
distance from the mean, and min-max normalize. -/
noncomputable def frequency_tuned_saliency {h w : ℕ} (cvtL : RGB8 → ℚ × ℚ × ℚ)
    (image : Image RGB8 h w) : Image ℝ h w :=
  let lab : Image (ℚ × ℚ × ℚ) h w := fun i j => cvtL (image i j)
  let mL : ℝ := (Finset.univ.sum (fun p : Fin h × Fin w => ((lab p.1 p.2).1 : ℝ))) / (h * w)
  let mA : ℝ := (Finset.univ.sum (fun p : Fin h × Fin w => ((lab p.1 p.2).2.1 : ℝ))) / (h * w)
  let mB : ℝ := (Finset.univ.sum (fun p : Fin h × Fin w => ((lab p.1 p.2).2.2 : ℝ))) / (h * w)
  let bL := blurWith g5 (fun i j => ((lab i j).1 : ℝ))
  let bA := blurWith g5 (fun i j => ((lab i j).2.1 : ℝ))
  let bB := blurWith g5 (fun i j => ((lab i j).2.2 : ℝ))
  cvNormalize (fun i j =>
    Real.sqrt ((bL i j - mL) ^ 2 + (bA i j - mA) ^ 2 + (bB i j - mB) ^ 2))

/-- `graph_based_saliency` (saliency.py lines 26-43): grayscale (per-pixel
conversion `cvtG`, OpenCV-internal), 3-tap Gaussian blur, Laplacian,
absolute value, min-max normalize. -/
noncomputable def graph_based_saliency {h w : ℕ} (cvtG : RGB8 → ℚ)
    (image : Image RGB8 h w) : Image ℝ h w :=
  let gray : Image ℝ h w := fun i j => ((cvtG (image i j) : ℚ) : ℝ)
  cvNormalize (fun i j => |laplacian (blurWith g3 gray) i j|)

/-- `compute_combined_saliency` (saliency.py lines 46-62): average the two
estimators, blur once more with the 5-tap Gaussian, and min-max
normalize. -/
noncomputable def compute_combined_saliency {h w : ℕ} (cvtL : RGB8 → ℚ × ℚ × ℚ)
    (cvtG : RGB8 → ℚ) (image : Image RGB8 h w) : Image ℝ h w :=
  let s1 := graph_based_saliency cvtG image
  let s2 := frequency_tuned_saliency cvtL image
  cvNormalize (blurWith g5 (fun i j => (s1 i j + s2 i j) / 2))

/-- `normalize_map` (utils.py lines 45-54): min-max normalization with the
`0.5`-on-flat guard.  Defined here because the spec cites it; the
saliency pipeline itself never calls it (it uses `cv2.normalize`). -/
def normalize_map {h w : ℕ} (f : Image ℚ h w) : Image ℚ h w :=
  fun i j =>
    let M := Finset.univ.sup' ⟨(i, j), Finset.mem_univ _⟩
      (fun p : Fin h × Fin w => f p.1 p.2)
    let m := Finset.univ.inf' ⟨(i, j), Finset.mem_univ _⟩
      (fun p : Fin h × Fin w => f p.1 p.2)
    if M = m then 1/2 else (f i j - m) / (M - m)

/-- Modelled from the spec: OpenCV's per-pixel RGB→grayscale conversion
("convert to grayscale", §4.3) with the standard Rec. 601 weights.  The
conversion lives inside cv2, outside this repository, and the theorems
below quantify over every per-pixel conversion; this concrete model is
only used to state closed counterexamples and witnesses. -/
def cv2Gray_model (c : RGB8) : ℚ := (299 * c.r + 587 * c.g + 114 * c.b) / 1000

/-- Modelled from the spec: cv2's per-pixel RGB→Lab map ("a standard
RGB→Lab transform", §4.1), which lives inside cv2, outside this
repository.  Exact CIE Lab needs cube roots and no settled claim depends
on the pixel values (the theorems quantify over every per-pixel
conversion), so a fixed linear placeholder is used for closed witnesses. -/
def cv2Lab_model (c : RGB8) : ℚ × ℚ × ℚ := ((c.r : ℚ), (c.g : ℚ), (c.b : ℚ))

/-- Modelled from the spec: cv2's 8-bit RGB→Lab per-pixel map as used by
utils.rgb_to_lab (output channels in `[0,255]`); placeholder for closed
witnesses, see `cv2Lab_model`. -/
def cv2LabU8_model (c : RGB8) : ℕ × ℕ × ℕ := (c.r, c.g, c.b)

/-- Modelled from the spec: cv2's per-pixel Lab→RGB inverse map
(`COLOR_LAB2RGB`); placeholder for closed witnesses. -/
def cv2RGB_model (t : ℕ × ℕ × ℕ) : RGB8 := ⟨t.1, t.2.1, t.2.2⟩

/-- Concrete candidate pool (Lab samples, scan order) used to refute the
global greedy-optimality claim and to witness the selection-order
theorem. -/
def pxLabC7 : List Lab :=
  [(0, 7, 6), (0, 4, 1), (0, -4, 5), (0, 3, 4), (0, 2, -5), (0, 2, -8), (0, 2, 2)]

/-- Saliency weights for `pxLabC7` (all one, so every weighted distance is
the plain base distance and pairwise distance is symmetric). -/
def slC7 : List ℚ := [1, 1, 1, 1, 1, 1, 1]

/-- An alternative 5-subset of the pool `pxLabC7.zip slC7` containing both
seeds chosen by the algorithm on that pool. -/
def altC7 : List (Lab × ℚ) :=
  [((0, 7, 6), 1), ((0, 4, 1), 1), ((0, -4, 5), 1), ((0, 3, 4), 1), ((0, 2, -8), 1)]

/-- Concrete 20-pixel test image data (pixel `j` has red channel `j`). -/
def pxW : List RGB8 :=
  [⟨0, 0, 0⟩, ⟨1, 0, 0⟩, ⟨2, 0, 0⟩, ⟨3, 0, 0⟩, ⟨4, 0, 0⟩,
   ⟨5, 0, 0⟩, ⟨6, 0, 0⟩, ⟨7, 0, 0⟩, ⟨8, 0, 0⟩, ⟨9, 0, 0⟩,
   ⟨10, 0, 0⟩, ⟨11, 0, 0⟩, ⟨12, 0, 0⟩, ⟨13, 0, 0⟩, ⟨14, 0, 0⟩,
   ⟨15, 0, 0⟩, ⟨16, 0, 0⟩, ⟨17, 0, 0⟩, ⟨18, 0, 0⟩, ⟨19, 0, 0⟩]

/-- Concrete 20-pixel saliency values: fifteen zeros then five ones, so
the mid-band is empty and the 70th-percentile fallback keeps exactly the
last five pixels. -/
def svW : List ℚ := [0, 0, 0, 0, 0, 0, 0, 0, 0, 0, 0, 0, 0, 0, 0, 1, 1, 1, 1, 1]

/-- The candidate pixels the sampler keeps on `pxW` / `svW`. -/
def pxWsel : List Lab :=
  [labScale (15, 0, 0), labScale (16, 0, 0), labScale (17, 0, 0),
   labScale (18, 0, 0), labScale (19, 0, 0)]

/-! ### Basic facts about the distance metric and the key comparator -/

theorem dsq_nonneg (p q : Lab) : 0 ≤ dsq p q := by
  unfold dsq; positivity

theorem dsq_symm (p q : Lab) : dsq p q = dsq q p := by
  unfold dsq; ring

theorem dsq_eq_zero_iff (p q : Lab) : dsq p q = 0 ↔ p = q := by
  unfold dsq
  constructor
  · intro h
    have h1 : (0.5 * (p.1 - q.1)) ^ 2 = 0 ∧ (p.2.1 - q.2.1) ^ 2 = 0 ∧ (p.2.2 - q.2.2) ^ 2 = 0 := by
      constructor
      · nlinarith [sq_nonneg (0.5 * (p.1 - q.1)), sq_nonneg (p.2.1 - q.2.1), sq_nonneg (p.2.2 - q.2.2)]
      constructor
      · nlinarith [sq_nonneg (0.5 * (p.1 - q.1)), sq_nonneg (p.2.1 - q.2.1), sq_nonneg (p.2.2 - q.2.2)]
      · nlinarith [sq_nonneg (0.5 * (p.1 - q.1)), sq_nonneg (p.2.1 - q.2.1), sq_nonneg (p.2.2 - q.2.2)]
    obtain ⟨e1, e2, e3⟩ := h1
    have f1 : p.1 = q.1 := by
      have := pow_eq_zero_iff (n := 2) (by norm_num) |>.mp e1
      have : p.1 - q.1 = 0 := by linarith [mul_eq_zero.mp this]
      linarith
    have f2 : p.2.1 = q.2.1 := by
      have := pow_eq_zero_iff (n := 2) (by norm_num) |>.mp e2
      linarith [sub_eq_zero.mp this]
    have f3 : p.2.2 = q.2.2 := by
      have := pow_eq_zero_iff (n := 2) (by norm_num) |>.mp e3
      linarith [sub_eq_zero.mp this]
    exact Prod.ext f1 (Prod.ext f2 f3)
  · intro h; subst h; ring

theorem kval_eq_wld (p q : Lab) (w : ℚ) :
    kval (w, dsq p q) = weighted_lab_distance p q w := rfl

theorem kval_neg_of {k : ℚ × ℚ} (h : k.1 < 0 ∧ 0 < k.2) : kval k < 0 :=
  mul_neg_of_neg_of_pos (by exact_mod_cast h.1) (Real.sqrt_pos.mpr (by exact_mod_cast h.2))

theorem kval_pos_of {k : ℚ × ℚ} (h : 0 < k.1 ∧ 0 < k.2) : 0 < kval k :=
  mul_pos (by exact_mod_cast h.1) (Real.sqrt_pos.mpr (by exact_mod_cast h.2))

theorem kval_zero_of {k : ℚ × ℚ} (h1 : ¬(k.1 < 0 ∧ 0 < k.2)) (h2 : ¬(0 < k.1 ∧ 0 < k.2)) :
    kval k = 0 := by
  unfold kval
  by_cases hk2 : 0 < k.2
  · have hk1 : k.1 = 0 := by
      rcases lt_trichotomy k.1 0 with h | h | h
      · exact absurd ⟨h, hk2⟩ h1
      · exact h
      · exact absurd ⟨h, hk2⟩ h2
    rw [hk1]; simp
  · have : Real.sqrt ((k.2 : ℚ) : ℝ) = 0 := by
      rw [Real.sqrt_eq_zero']
      exact_mod_cast not_lt.mp hk2
    rw [this, mul_zero]

theorem kval_mul_self {k : ℚ × ℚ} (h : 0 ≤ k.2) :
    kval k * kval k = ((k.1 ^ 2 * k.2 : ℚ) : ℝ) := by
  unfold kval
  have hs : Real.sqrt ((k.2 : ℚ) : ℝ) * Real.sqrt ((k.2 : ℚ) : ℝ) = ((k.2 : ℚ) : ℝ) :=
    Real.mul_self_sqrt (by exact_mod_cast h)
  push_cast
  rw [mul_mul_mul_comm, hs]
  ring

theorem klt_iff (a b : ℚ × ℚ) : klt a b = true ↔ kval a < kval b := by
  unfold klt
  by_cases ha1 : a.1 < 0 ∧ 0 < a.2
  · have hka := kval_neg_of ha1
    simp only [if_pos ha1]
    by_cases hb1 : b.1 < 0 ∧ 0 < b.2
    · have hkb := kval_neg_of hb1
      simp only [if_pos hb1, decide_eq_true_eq]
      have key : kval a < kval b ↔ kval b * kval b < kval a * kval a := by
        rw [← neg_lt_neg_iff, ← neg_mul_neg (kval b) (kval b), ← neg_mul_neg (kval a) (kval a)]
        exact mul_self_lt_mul_self_iff (neg_nonneg.mpr hkb.le) (neg_nonneg.mpr hka.le)
      rw [key, kval_mul_self ha1.2.le, kval_mul_self hb1.2.le]
      exact_mod_cast Iff.rfl
    · have hkb : 0 ≤ kval b := by
        by_cases hb2 : 0 < b.1 ∧ 0 < b.2
        · exact (kval_pos_of hb2).le
        · exact (kval_zero_of hb1 hb2).ge
      simp only [if_neg hb1]
      simpa using lt_of_lt_of_le hka hkb
  · by_cases ha2 : 0 < a.1 ∧ 0 < a.2
    · have hka := kval_pos_of ha2
      simp only [if_neg ha1, if_pos ha2]
      by_cases hb2 : 0 < b.1 ∧ 0 < b.2
      · have hkb := kval_pos_of hb2
        simp only [if_pos hb2, decide_eq_true_eq]
        have key : kval a < kval b ↔ kval a * kval a < kval b * kval b :=
          mul_self_lt_mul_self_iff hka.le hkb.le
        rw [key, kval_mul_self ha2.2.le, kval_mul_self hb2.2.le]
        exact_mod_cast Iff.rfl
      · have hkb : kval b ≤ 0 := by
          by_cases hb1 : b.1 < 0 ∧ 0 < b.2
          · exact (kval_neg_of hb1).le
          · exact (kval_zero_of hb1 hb2).le
        simp only [if_neg hb2]
        constructor
        · intro h; exact absurd h (by simp)
        · intro h; exact absurd (lt_of_lt_of_le h hkb) (asymm hka)
    · have hka : kval a = 0 := kval_zero_of ha1 ha2
      simp only [if_neg ha1, if_neg ha2, decide_eq_true_eq]
      rw [hka]
      constructor
      · intro h; exact kval_pos_of h
      · intro h
        by_contra hb2
        by_cases hb1 : b.1 < 0 ∧ 0 < b.2
        · exact absurd (lt_trans h (kval_neg_of hb1)) (lt_irrefl 0)
        · rw [kval_zero_of hb1 hb2] at h; exact lt_irrefl 0 h

theorem qlt_iff (a b : ℚ) : qlt a b = true ↔ a < b := by
  unfold qlt; exact decide_eq_true_iff

theorem kval_init : kval (-1, 1) = -1 := by
  unfold kval
  push_cast
  rw [Real.sqrt_one]
  ring

/-! ### List indexing helpers -/

theorem getD_map_of_lt {α β : Type} (f : α → β) (l : List α) (j : ℕ) (d : β) (d' : α)
    (hj : j < l.length) : (l.map f).getD j d = f (l.getD j d') := by
  rw [List.getD_eq_getElem _ _ (by simpa using hj), List.getD_eq_getElem _ _ hj,
    List.getElem_map]

theorem getD_map_all {α β : Type} (f : α → β) (l : List α) (j : ℕ) (d : α) :
    (l.map f).getD j (f d) = f (l.getD j d) := by
  by_cases hj : j < l.length
  · exact getD_map_of_lt f l j (f d) d hj
  · rw [List.getD_eq_default, List.getD_eq_default] <;> simpa using not_lt.mp hj

theorem getD_mem_of_lt {α : Type} (l : List α) (j : ℕ) (d : α) (hj : j < l.length) :
    l.getD j d ∈ l := by
  rw [List.getD_eq_getElem _ _ hj]
  exact List.getElem_mem hj

/-! ### The argmax scan -/

theorem argmaxGo_spec {κ α : Type} [LinearOrder α] (val : κ → α) (ltb : κ → κ → Bool)
    (hcmp : ∀ a b, ltb a b = true ↔ val a < val b) (d : κ) (l : List κ) :
    ∀ (t : List κ) (i : ℕ) (acc : ℕ × κ),
      l.length = i + t.length →
      (∀ k, k < t.length → t.getD k d = l.getD (i + k) d) →
      acc.1 < i → acc.2 = l.getD acc.1 d →
      (∀ j, j < i → val (l.getD j d) ≤ val acc.2) →
      (∀ j, j < acc.1 → val (l.getD j d) < val acc.2) →
      FirstArgmax (fun j => val (l.getD j d)) l.length (argmaxGo ltb t i acc).1 ∧
      (argmaxGo ltb t i acc).2 = l.getD (argmaxGo ltb t i acc).1 d
  | [], i, acc => by
    intro hlen ht hai hacc hle hlt
    simp only [argmaxGo]
    have hn : l.length = i := by simpa using hlen
    refine ⟨⟨by omega, ?_, ?_⟩, hacc⟩
    · intro j hj
      have := hle j (by omega)
      rw [hacc] at this
      exact this
    · intro j hj
      have := hlt j hj
      rw [hacc] at this
      exact this
  | k :: tl, i, acc => by
    intro hlen ht hai hacc hle hlt
    have hk : k = l.getD i d := by
      have := ht 0 (by simp)
      simpa using this
    have hlen' : l.length = (i + 1) + tl.length := by
      simp only [List.length_cons] at hlen; omega
    have ht' : ∀ k', k' < tl.length → tl.getD k' d = l.getD ((i + 1) + k') d := by
      intro k' hk'
      have := ht (k' + 1) (by simpa using Nat.succ_lt_succ hk')
      simpa [Nat.add_comm, Nat.add_assoc, Nat.add_left_comm] using this
    simp only [argmaxGo]
    by_cases hc : ltb acc.2 k = true
    · rw [if_pos hc]
      have hval : val acc.2 < val k := (hcmp _ _).mp hc
      exact argmaxGo_spec val ltb hcmp d l tl (i + 1) (i, k) hlen' ht'
        (Nat.lt_succ_self i) hk
        (by
          intro j hj
          rcases Nat.lt_succ_iff_lt_or_eq.mp hj with h | h
          · exact le_of_lt (lt_of_le_of_lt (hle j h) hval)
          · subst h; rw [← hk])
        (by
          intro j hj
          exact lt_of_le_of_lt (hle j hj) hval)
    · rw [if_neg hc]
      have hval : val k ≤ val acc.2 := not_lt.mp (fun hv => hc ((hcmp _ _).mpr hv))
      exact argmaxGo_spec val ltb hcmp d l tl (i + 1) acc hlen' ht'
        (Nat.lt_succ_of_lt hai) hacc
        (by
          intro j hj
          rcases Nat.lt_succ_iff_lt_or_eq.mp hj with h | h
          · exact hle j h
          · subst h; rw [← hk]; exact hval)
        hlt

theorem argmaxFold_spec {κ α : Type} [LinearOrder α] (val : κ → α) (ltb : κ → κ → Bool)
    (hcmp : ∀ a b, ltb a b = true ↔ val a < val b) (d : κ) (l : List κ) (hne : l ≠ []) :
    FirstArgmax (fun j => val (l.getD j d)) l.length (argmaxFold ltb l) := by
  match l with
  | [] => exact absurd rfl hne
  | k :: t =>
    have := argmaxGo_spec val ltb hcmp d (k :: t) t 1 (0, k)
      (by simp [Nat.add_comm]) (by intro k' hk'; simp [Nat.add_comm]) (by omega) (by simp)
      (by intro j hj; interval_cases j; simp) (by intro j hj; omega)
    exact this.1

/-! ### The minimum-distance key of a candidate -/

theorem kval_minFold (t : List (ℚ × ℚ)) :
    ∀ k : ℚ × ℚ, kval (t.foldl (fun acc x => if klt x acc then x else acc) k) =
      (t.map kval).foldl min (kval k) := by
  induction t with
  | nil => intro k; simp
  | cons x xs ih =>
    intro k
    simp only [List.foldl_cons, List.map_cons]
    rw [ih]
    congr 1
    by_cases hc : klt x k = true
    · rw [if_pos hc, min_eq_right ((klt_iff x k).mp hc).le]
    · rw [if_neg hc, min_eq_left (not_lt.mp (fun hv => hc ((klt_iff x k).mpr hv)))]

theorem candKey_val (sel : List (Lab × ℚ)) (c : Lab) (hsel : sel ≠ []) :
    kval (candKey sel c) = minWD sel c := by
  match sel with
  | [] => exact absurd rfl hsel
  | s :: t =>
    show kval ((t.map (fun s => (s.2, dsq c s.1))).foldl
        (fun acc x => if klt x acc then x else acc) (s.2, dsq c s.1)) =
      (t.map (fun s => weighted_lab_distance c s.1 s.2)).foldl min
        (weighted_lab_distance c s.1 s.2)
    rw [kval_minFold, List.map_map]
    rfl

theorem wld_nonneg (p q : Lab) (w : ℚ) (hw : 0 ≤ w) : 0 ≤ weighted_lab_distance p q w :=
  mul_nonneg (by exact_mod_cast hw) (Real.sqrt_nonneg _)

theorem foldl_min_nonneg (t : List ℝ) :
    ∀ v : ℝ, 0 ≤ v → (∀ x ∈ t, 0 ≤ x) → 0 ≤ t.foldl min v := by
  induction t with
  | nil => intro v hv _; simpa using hv
  | cons x xs ih =>
    intro v hv hx
    simp only [List.foldl_cons]
    exact ih (min v x) (le_min hv (hx x (by simp))) (fun y hy => hx y (by simp [hy]))

theorem minWD_nonneg (sel : List (Lab × ℚ)) (c : Lab) (hw : ∀ s ∈ sel, 0 ≤ s.2) :
    0 ≤ minWD sel c := by
  match sel with
  | [] => exact le_refl 0
  | s :: t =>
    show 0 ≤ (t.map (fun s => weighted_lab_distance c s.1 s.2)).foldl min
      (weighted_lab_distance c s.1 s.2)
    refine foldl_min_nonneg _ _ (wld_nonneg _ _ _ (hw s (by simp))) ?_
    intro x hx
    obtain ⟨s', hs', rfl⟩ := List.mem_map.mp hx
    exact wld_nonneg _ _ _ (hw s' (by simp [hs']))

/-! ### The greedy round scan -/

theorem pickGo_spec (sel : List (Lab × ℚ)) (hsel : sel ≠ [])
    (hw : ∀ s ∈ sel, 0 ≤ s.2) (cands : List (Lab × ℚ)) :
    ∀ (t : List (Lab × ℚ)) (i : ℕ) (mk : ℚ × ℚ) (best : Option (ℕ × Lab × ℚ)),
      cands.length = i + t.length →
      (∀ k, k < t.length → t.getD k junkE = cands.getD (i + k) junkE) →
      ((best = none ∧ i = 0 ∧ mk = (-1, 1)) ∨
        (∃ bi, bi < i ∧ best = some (bi, cands.getD bi junkE) ∧
          kval mk = minWD sel ((cands.getD bi junkE).1) ∧
          (∀ j, j < i → minWD sel ((cands.getD j junkE).1) ≤ kval mk) ∧
          (∀ j, j < bi → minWD sel ((cands.getD j junkE).1) < kval mk))) →
      cands ≠ [] →
      ∃ bi, pickGo sel t i mk best = some (bi, cands.getD bi junkE) ∧
        GreedyPick sel cands bi (cands.getD bi junkE)
  | [], i, mk, best => by
    intro hlen ht hinv hc
    have hn : cands.length = i := by simpa using hlen
    rcases hinv with ⟨_, hi0, _⟩ | ⟨bi, hbi, hbest, hmk, hle, hlt⟩
    · exact absurd (List.length_eq_zero.mp (by omega)) hc
    · refine ⟨bi, by simpa [pickGo] using hbest, rfl, by omega, ?_, ?_⟩
      · intro j hj
        have := hle j (by omega)
        rwa [hmk] at this
      · intro j hj
        have := hlt j hj
        rwa [hmk] at this
  | c :: tl, i, mk, best => by
    intro hlen ht hinv hc
    have hkc : c = cands.getD i junkE := by simpa using ht 0 (by simp)
    have hckval : kval (candKey sel c.1) = minWD sel ((cands.getD i junkE).1) := by
      rw [candKey_val sel c.1 hsel, hkc]
    have hlen' : cands.length = (i + 1) + tl.length := by
      simp only [List.length_cons] at hlen; omega
    have ht' : ∀ k, k < tl.length → tl.getD k junkE = cands.getD ((i + 1) + k) junkE := by
      intro k hk
      have := ht (k + 1) (by simpa using Nat.succ_lt_succ hk)
      simpa [Nat.add_comm, Nat.add_assoc, Nat.add_left_comm] using this
    simp only [pickGo]
    by_cases hck : klt mk (candKey sel c.1) = true
    · rw [if_pos hck]
      have hkv : kval mk < kval (candKey sel c.1) := (klt_iff _ _).mp hck
      refine pickGo_spec sel hsel hw cands tl (i + 1) (candKey sel c.1) (some (i, c))
        hlen' ht' (Or.inr ⟨i, Nat.lt_succ_self i, by rw [hkc], hckval, ?_, ?_⟩) hc
      · intro j hj
        rcases Nat.lt_succ_iff_lt_or_eq.mp hj with h | h
        · rcases hinv with ⟨_, hi0, hmk1⟩ | ⟨bi, hbi, hbest, hmk, hle, hlt⟩
          · omega
          · have hthis := hle j h
            rw [hckval]
            exact le_of_lt (lt_of_le_of_lt hthis (hckval ▸ hkv))
        · subst h
          rw [hckval]
      · intro j hj
        rcases hinv with ⟨_, hi0, hmk1⟩ | ⟨bi, hbi, hbest, hmk, hle, hlt⟩
        · omega
        · have hthis := hle j hj
          rw [hckval]
          exact lt_of_le_of_lt hthis (hckval ▸ hkv)
    · rw [if_neg hck]
      have hkv : kval (candKey sel c.1) ≤ kval mk :=
        not_lt.mp (fun hv => hck ((klt_iff _ _).mpr hv))
      rcases hinv with ⟨hbn, hi0, hmk1⟩ | ⟨bi, hbi, hbest, hmk, hle, hlt⟩
      · exfalso
        have h0 : 0 ≤ kval (candKey sel c.1) := by
          rw [candKey_val sel c.1 hsel]
          exact minWD_nonneg sel c.1 hw
        rw [hmk1, kval_init] at hkv
        linarith
      · refine pickGo_spec sel hsel hw cands tl (i + 1) mk best hlen'
          ht' (Or.inr ⟨bi, by omega, hbest, hmk, ?_, hlt⟩) hc
        intro j hj
        rcases Nat.lt_succ_iff_lt_or_eq.mp hj with h | h
        · exact hle j h
        · subst h
          exact hckval ▸ hkv

theorem pickBest_spec (sel : List (Lab × ℚ)) (hsel : sel ≠ []) (hw : ∀ s ∈ sel, 0 ≤ s.2)
    (cands : List (Lab × ℚ)) (hc : cands ≠ []) :
    ∃ bi, pickBest sel cands = some (bi, cands.getD bi junkE) ∧
      GreedyPick sel cands bi (cands.getD bi junkE) :=
  pickGo_spec sel hsel hw cands cands 0 (-1, 1) none (by simp)
    (by intro k hk; simp) (Or.inl ⟨rfl, rfl, rfl⟩) hc

theorem greedyStep_of_pick {sel cands : List (Lab × ℚ)} {bi : ℕ}
    (h : pickBest sel cands = some (bi, cands.getD bi junkE)) :
    greedyStep (sel, cands) = (sel ++ [cands.getD bi junkE], cands.eraseIdx bi) := by
  simp [greedyStep, h]

/-! ### Counting the removed seed indices -/

theorem length_filter_not_eq {α : Type} (p : α → Bool) (l : List α) :
    (l.filter (fun x => !(p x))).length = l.length - l.countP p := by
  induction l with
  | nil => simp
  | cons x t ih =>
    have hc : t.countP p ≤ t.length := List.countP_le_length p
    cases hpx : p x with
    | false => simp [List.filter_cons, List.countP_cons, hpx, ih]; omega
    | true => simp [List.filter_cons, List.countP_cons, hpx, ih]

theorem countP_or_le {α : Type} (p q : α → Bool) (l : List α) :
    l.countP (fun x => p x || q x) ≤ l.countP p + l.countP q := by
  induction l with
  | nil => simp
  | cons x t ih =>
    simp only [List.countP_cons]
    cases hp : p x <;> cases hq : q x <;> simp [hp, hq] <;> omega

theorem countP_enumFrom_lt {α : Type} (a : ℕ) (l : List α) :
    ∀ s : ℕ, a < s → (List.enumFrom s l).countP (fun x => x.1 == a) = 0 := by
  induction l with
  | nil => intro s _; simp
  | cons x t ih =>
    intro s hs
    rw [List.enumFrom_cons, List.countP_cons, ih (s + 1) (by omega)]
    have : ((s, x).1 == a) = false := by
      simp only [beq_eq_false_iff_ne, ne_eq]
      omega
    simp [this]

theorem countP_enumFrom_le_one {α : Type} (a : ℕ) (l : List α) :
    ∀ s : ℕ, (List.enumFrom s l).countP (fun x => x.1 == a) ≤ 1 := by
  induction l with
  | nil => intro s; simp
  | cons x t ih =>
    intro s
    rw [List.enumFrom_cons, List.countP_cons]
    by_cases hs : s = a
    · subst hs
      rw [countP_enumFrom_lt s t (s + 1) (by omega)]
      simp
    · have : ((s, x).1 == a) = false := by
        simp only [beq_eq_false_iff_ne, ne_eq]
        exact hs
      simp [this]
      exact ih (s + 1)

theorem removeSeeds_length_ge (pool : List (Lab × ℚ)) (i1 i2 : ℕ) :
    pool.length - 2 ≤ (removeSeeds pool i1 i2).length := by
  unfold removeSeeds
  rw [List.length_map, length_filter_not_eq]
  have h2 := countP_or_le (fun x => x.1 == i1) (fun x => x.1 == i2) pool.enum
  have h3 : pool.enum.countP (fun x => x.1 == i1) ≤ 1 := countP_enumFrom_le_one i1 pool 0
  have h4 : pool.enum.countP (fun x => x.1 == i2) ≤ 1 := countP_enumFrom_le_one i2 pool 0
  have h5 : pool.enum.length = pool.length := List.enum_length
  omega

theorem mem_removeSeeds {pool : List (Lab × ℚ)} {i1 i2 : ℕ} {x : Lab × ℚ}
    (hx : x ∈ removeSeeds pool i1 i2) : x ∈ pool := by
  unfold removeSeeds at hx
  obtain ⟨y, hy, rfl⟩ := List.mem_map.mp hx
  have hy2 : y ∈ pool.enum := List.mem_of_mem_filter hy
  have hy3 := List.mem_enum_iff_getElem?.mp hy2
  have hy4 : y.1 < pool.length := by
    by_contra hcon
    rw [List.getElem?_eq_none (by omega)] at hy3
    exact Option.noConfusion hy3
  have hy5 : pool[y.1] = y.2 := by
    rw [List.getElem?_eq_getElem hy4] at hy3
    exact Option.some.inj hy3
  rw [← hy5]
  exact List.getElem_mem hy4

theorem FirstArgmax_congr {α : Type} [LinearOrder α] {v v' : ℕ → α} {n i : ℕ}
    (h : ∀ j, v j = v' j) (hfa : FirstArgmax v n i) : FirstArgmax v' n i := by
  obtain ⟨h1, h2, h3⟩ := hfa
  refine ⟨h1, fun j hj => ?_, fun j hj => ?_⟩
  · rw [← h j, ← h i]; exact h2 j hj
  · rw [← h j, ← h i]; exact h3 j hj

/-! ### The selection order of `selectColors` -/

theorem selectColors_spec (pixels : List Lab) (sal : List ℚ)
    (hlen : pixels.length = sal.length) (h5 : 5 ≤ pixels.length)
    (hw : ∀ x ∈ sal, 0 ≤ x) : SelSpec pixels sal := by
  have hsal_ne : sal ≠ [] := List.ne_nil_of_length_pos (by omega)
  have hpx_ne : pixels ≠ [] := List.ne_nil_of_length_pos (by omega)
  set i1 := argmaxFold qlt sal with hi1def
  have hFA1 : FirstArgmax (fun j => sal.getD j 0) sal.length i1 :=
    argmaxFold_spec (fun x => x) qlt (fun a b => qlt_iff a b) 0 sal hsal_ne
  set p1 := pixels.getD i1 labJunk with hp1def
  set w1 := sal.getD i1 0 with hw1def
  set i2 := seedTwoIdx pixels p1 w1 with hi2def
  have hkm_ne : pixels.map (fun p => ((w1 : ℚ), dsq p p1)) ≠ [] := by
    simpa using hpx_ne
  have hFA2k := argmaxFold_spec kval klt klt_iff ((w1, dsq labJunk p1))
    (pixels.map (fun p => (w1, dsq p p1))) hkm_ne
  rw [List.length_map] at hFA2k
  have hFA2 : FirstArgmax (fun j => weighted_lab_distance (pixels.getD j labJunk) p1 w1)
      pixels.length i2 := by
    refine FirstArgmax_congr (v := fun j =>
      kval ((pixels.map (fun p => (w1, dsq p p1))).getD j (w1, dsq labJunk p1))) ?_ hFA2k
    intro j
    show kval ((pixels.map (fun p => (w1, dsq p p1))).getD j (w1, dsq labJunk p1)) =
      weighted_lab_distance (pixels.getD j labJunk) p1 w1
    rw [getD_map_all]
    rfl
  have hi1lt : i1 < sal.length := hFA1.1
  have hi2lt : i2 < pixels.length := hFA2.1
  set s1 : Lab × ℚ := (p1, w1) with hs1def
  set p2 := pixels.getD i2 labJunk with hp2def
  set w2 := sal.getD i2 0 with hw2def
  set s2 : Lab × ℚ := (p2, w2) with hs2def
  set pool0 := removeSeeds (pixels.zip sal) i1 i2 with hpool0def
  have hziplen : (pixels.zip sal).length = pixels.length := by
    rw [List.length_zip, hlen, min_self]
  have hpool0len : pixels.length - 2 ≤ pool0.length := by
    have := removeSeeds_length_ge (pixels.zip sal) i1 i2
    rwa [hziplen] at this
  have hw0 : ∀ x ∈ pool0, 0 ≤ x.2 := by
    intro x hx
    exact hw x.2 (List.of_mem_zip (mem_removeSeeds hx)).2
  have hws1 : (0 : ℚ) ≤ s1.2 := hw _ (getD_mem_of_lt sal i1 0 hi1lt)
  have hws2 : (0 : ℚ) ≤ s2.2 := hw _ (getD_mem_of_lt sal i2 0 (by omega))
  obtain ⟨i3, hpb3, hGP3⟩ := pickBest_spec [s1, s2] (by simp)
    (by
      intro s hs
      simp only [List.mem_cons, List.not_mem_nil, or_false] at hs
      rcases hs with rfl | rfl
      exacts [hws1, hws2]) pool0
    (List.ne_nil_of_length_pos (by omega))
  set c3 := pool0.getD i3 junkE with hc3def
  have hi3lt : i3 < pool0.length := hGP3.2.1
  set pool1 := pool0.eraseIdx i3 with hpool1def
  have hpool1len : pool1.length = pool0.length - 1 := by
    rw [hpool1def, List.length_eraseIdx]
    simp [hi3lt]
  have hw1p : ∀ x ∈ pool1, 0 ≤ x.2 := fun x hx =>
    hw0 x (List.Sublist.mem hx (List.eraseIdx_sublist pool0 i3))
  have hwc3 : (0 : ℚ) ≤ c3.2 := hw0 _ (getD_mem_of_lt pool0 i3 junkE hi3lt)
  obtain ⟨i4, hpb4, hGP4⟩ := pickBest_spec [s1, s2, c3] (by simp)
    (by
      intro s hs
      simp only [List.mem_cons, List.not_mem_nil, or_false] at hs
      rcases hs with rfl | rfl | rfl
      exacts [hws1, hws2, hwc3]) pool1
    (List.ne_nil_of_length_pos (by omega))
  set c4 := pool1.getD i4 junkE with hc4def
  have hi4lt : i4 < pool1.length := hGP4.2.1
  set pool2 := pool1.eraseIdx i4 with hpool2def
  have hpool2len : pool2.length = pool1.length - 1 := by
    rw [hpool2def, List.length_eraseIdx]
    simp [hi4lt]
  have hw2p : ∀ x ∈ pool2, 0 ≤ x.2 := fun x hx =>
    hw1p x (List.Sublist.mem hx (List.eraseIdx_sublist pool1 i4))
  have hwc4 : (0 : ℚ) ≤ c4.2 := hw1p _ (getD_mem_of_lt pool1 i4 junkE hi4lt)
  obtain ⟨i5, hpb5, hGP5⟩ := pickBest_spec [s1, s2, c3, c4] (by simp)
    (by
      intro s hs
      simp only [List.mem_cons, List.not_mem_nil, or_false] at hs
      rcases hs with rfl | rfl | rfl | rfl
      exacts [hws1, hws2, hwc3, hwc4]) pool2
    (List.ne_nil_of_length_pos (by omega))
  set c5 := pool2.getD i5 junkE with hc5def
  have e1 : greedyStep ([s1, s2], pool0) = ([s1, s2, c3], pool1) := by
    rw [greedyStep_of_pick hpb3]
    rfl
  have e2 : greedyStep ([s1, s2, c3], pool1) = ([s1, s2, c3, c4], pool2) := by
    rw [greedyStep_of_pick hpb4]
    rfl
  have e3 : greedyStep ([s1, s2, c3, c4], pool2) =
      ([s1, s2, c3, c4, c5], pool2.eraseIdx i5) := by
    rw [greedyStep_of_pick hpb5]
    rfl
  refine ⟨i1, i2, i3, i4, i5, hFA1, hFA2, hGP3, hGP4, hGP5, ?_⟩
  have hstart : selectColors pixels sal =
      (greedyStep (greedyStep (greedyStep ([s1, s2], pool0)))).1 := rfl
  rw [hstart, e1, e2, e3]

theorem selectColors_length (pixels : List Lab) (sal : List ℚ)
    (hlen : pixels.length = sal.length) (h5 : 5 ≤ pixels.length)
    (hw : ∀ x ∈ sal, 0 ≤ x) : (selectColors pixels sal).length = 5 := by
  obtain ⟨i1, i2, i3, i4, i5, _, _, _, _, _, heq⟩ := selectColors_spec pixels sal hlen h5 hw
  rw [heq]
  rfl

/-! ### Boolean-mask indexing -/

theorem zip_filter_true_length {α : Type} :
    ∀ (xs : List α) (m : List Bool), xs.length = m.length →
      (((xs.zip m).filter (fun pr => pr.2)).length = m.count true)
  | [], [], _ => by simp
  | [], b :: m, h => by simp at h
  | x :: xs, [], h => by simp at h
  | x :: xs, b :: m, h => by
    have ih := zip_filter_true_length xs m (by simpa using h)
    cases b <;> simp [List.count_cons, ih]

theorem filter_zip_mask_fst {α : Type} :
    ∀ (xs : List α) (s : List ℚ) (p : ℚ → Bool), xs.length = s.length →
      ((xs.zip (s.map p)).filter (fun pr => pr.2)).map Prod.fst
        = ((xs.zip s).filter (fun pr => p pr.2)).map Prod.fst
  | [], [], _, _ => by simp
  | [], y :: s, _, h => by simp at h
  | x :: xs, [], _, h => by simp at h
  | x :: xs, y :: s, p, h => by
    have ih := filter_zip_mask_fst xs s p (by simpa using h)
    cases hp : p y <;> simp [hp, ih]

theorem filter_zip_mask_snd {α : Type} :
    ∀ (xs : List α) (s : List ℚ) (p : ℚ → Bool), xs.length = s.length →
      ((s.zip (s.map p)).filter (fun pr => pr.2)).map Prod.fst
        = ((xs.zip s).filter (fun pr => p pr.2)).map Prod.snd
  | [], [], _, _ => by simp
  | [], y :: s, _, h => by simp at h
  | x :: xs, [], _, h => by simp at h
  | x :: xs, y :: s, p, h => by
    have ih := filter_zip_mask_snd xs s p (by simpa using h)
    cases hp : p y <;> simp [hp, ih]

theorem boolIndex_mask {α : Type} (xs : List α) (s : List ℚ) (p : ℚ → Bool)
    (h : xs.length = s.length) :
    boolIndex xs (s.map p) =
      Except.ok (((xs.zip s).filter (fun pr => p pr.2)).map Prod.fst) := by
  unfold boolIndex
  rw [if_pos (by simpa using h), filter_zip_mask_fst xs s p h]

theorem boolIndex_mask_self {α : Type} (xs : List α) (s : List ℚ) (p : ℚ → Bool)
    (h : xs.length = s.length) :
    boolIndex s (s.map p) =
      Except.ok (((xs.zip s).filter (fun pr => p pr.2)).map Prod.snd) := by
  unfold boolIndex
  rw [if_pos (by simp), filter_zip_mask_snd xs s p h]

theorem mem_boolIndex {α : Type} {xs : List α} {m : List Bool} {ys : List α}
    (h : boolIndex xs m = Except.ok ys) : ∀ y ∈ ys, y ∈ xs := by
  unfold boolIndex at h
  by_cases hl : xs.length = m.length
  · rw [if_pos hl] at h
    intro y hy
    obtain ⟨pr, hpr, rfl⟩ := List.mem_map.mp (Except.ok.inj h ▸ hy)
    exact (List.of_mem_zip (List.mem_of_mem_filter hpr)).1
  · rw [if_neg hl] at h
    exact absurd h (by simp)

theorem boolIndex_length {α : Type} {xs : List α} {m : List Bool} {ys : List α}
    (h : boolIndex xs m = Except.ok ys) : ys.length = m.count true := by
  unfold boolIndex at h
  by_cases hl : xs.length = m.length
  · rw [if_pos hl] at h
    rw [← Except.ok.inj h, List.length_map]
    exact zip_filter_true_length xs m hl
  · rw [if_neg hl] at h
    exact absurd h (by simp)

theorem boolIndex_len_ne {α : Type} (xs : List α) (m : List Bool)
    (h : xs.length ≠ m.length) : ∃ e, boolIndex xs m = Except.error e := by
  unfold boolIndex
  rw [if_neg h]
  exact ⟨_, rfl⟩

theorem getD_mem_or {α : Type} (l : List α) (i : ℕ) (d : α) :
    l.getD i d ∈ l ∨ l.getD i d = d := by
  by_cases hi : i < l.length
  · exact Or.inl (getD_mem_of_lt l i d hi)
  · exact Or.inr (List.getD_eq_default l d (by omega))

/-! ### Facts about the sampling stage -/

theorem samplePixels_ok_facts {pixels : List Lab} {sal : List ℚ} {rnd : List ℕ}
    {a : List Lab} {b : List ℚ}
    (h : samplePixels pixels sal rnd = Except.ok (a, b)) :
    a.length = b.length ∧ (∀ x ∈ b, x ∈ sal ∨ x = 0) := by
  unfold samplePixels at h
  by_cases hemp : sal.isEmpty
  · rw [if_pos hemp] at h
    exact absurd h (by simp)
  rw [if_neg hemp] at h
  simp only [] at h
  set mask :=
    (if (sal.map (fun s =>
          decide (percentile sal 20 < s) && decide (s < percentile sal 80))).count true < 250
     then sal.map (fun s => decide (percentile sal 70 < s))
     else sal.map (fun s =>
          decide (percentile sal 20 < s) && decide (s < percentile sal 80))) with hmask
  cases hbi : boolIndex pixels mask with
  | error e => rw [hbi] at h; simp at h
  | ok px =>
    cases hbs : boolIndex sal mask with
    | error e => rw [hbi, hbs] at h; simp at h
    | ok sl =>
      rw [hbi, hbs] at h
      simp only at h
      by_cases h5 : px.length < 5
      · rw [if_pos h5] at h
        obtain ⟨ha, hb⟩ := Prod.mk.injEq _ _ _ _ ▸ Except.ok.inj h
        constructor
        · rw [← ha, ← hb]
          simp
        · intro x hx
          rw [← hb] at hx
          obtain ⟨i, _, rfl⟩ := List.mem_map.mp hx
          exact getD_mem_or sal i 0
      · rw [if_neg h5] at h
        obtain ⟨ha, hb⟩ := Prod.mk.injEq _ _ _ _ ▸ Except.ok.inj h
        constructor
        · rw [← ha, ← hb, boolIndex_length hbi, boolIndex_length hbs]
        · intro x hx
          rw [← hb] at hx
          exact Or.inl (mem_boolIndex hbs x hx)

theorem samplePixels_len_ne (pixels : List Lab) (sal : List ℚ) (rnd : List ℕ)
    (h : pixels.length ≠ sal.length) :
    ∃ e, samplePixels pixels sal rnd = Except.error e := by
  unfold samplePixels
  by_cases hemp : sal.isEmpty
  · rw [if_pos hemp]
    exact ⟨_, rfl⟩
  rw [if_neg hemp]
  simp only []
  have hlm : ∀ p : ℚ → Bool, pixels.length ≠ (sal.map p).length := by
    intro p
    simpa using h
  by_cases hc : (sal.map (fun s =>
      decide (percentile sal 20 < s) && decide (s < percentile sal 80))).count true < 250
  · rw [if_pos hc]
    obtain ⟨e, he⟩ := boolIndex_len_ne pixels
      (sal.map (fun s => decide (percentile sal 70 < s))) (hlm _)
    rw [he]
    exact ⟨e, rfl⟩
  · rw [if_neg hc]
    obtain ⟨e, he⟩ := boolIndex_len_ne pixels
      (sal.map (fun s =>
        decide (percentile sal 20 < s) && decide (s < percentile sal 80))) (hlm _)
    rw [he]
    exact ⟨e, rfl⟩

/-! ### Flattening of images -/

theorem flattenImg_length {α : Type} {h w : ℕ} (f : Image α h w) :
    (flattenImg f).length = h * w := by
  unfold flattenImg
  rw [List.length_flatMap]
  have : ∀ i : Fin h, (List.length ∘ fun i => (List.finRange w).map (fun j => f i j)) i = w := by
    intro i
    simp
  rw [List.map_congr_left (fun i _ => this i)]
  simp [List.map_const]

theorem mem_flattenImg {α : Type} {h w : ℕ} {f : Image α h w} {x : α}
    (hx : x ∈ flattenImg f) : ∃ i j, x = f i j := by
  unfold flattenImg at hx
  obtain ⟨i, -, hi⟩ := List.mem_flatMap.mp hx
  obtain ⟨j, -, rfl⟩ := List.mem_map.mp hi
  exact ⟨i, j, rfl⟩

theorem flatMap_singleton_map {α β : Type} (g : α → β) :
    ∀ l : List α, (l.flatMap (fun i => [g i])) = l.map g := by
  intro l
  induction l with
  | nil => simp
  | cons x t ih => simp [List.flatMap_cons, ih]

theorem flatten_listImage {α : Type} (xs : List α) : flattenImg (listImage xs) = xs := by
  unfold flattenImg listImage
  rw [show (List.finRange 1) = [0] by simp [List.finRange_succ]]
  simp only [List.flatMap_cons, List.flatMap_nil, List.append_nil]
  rw [← List.ofFn_eq_map, List.ofFn_get]

theorem flatten_colImage {α : Type} (xs : List α) : flattenImg (colImage xs) = xs := by
  unfold flattenImg colImage
  rw [show (List.finRange 1) = [0] by simp [List.finRange_succ]]
  simp only [List.map_cons, List.map_nil]
  rw [flatMap_singleton_map (fun i => xs.get i) (List.finRange xs.length),
    ← List.ofFn_eq_map, List.ofFn_get]

/-! ### Unfolding `extract_palette` -/

theorem extract_palette_ok {h w hs ws : ℕ} (cvt2lab : RGB8 → ℕ × ℕ × ℕ)
    (cvtBack : ℕ × ℕ × ℕ → RGB8) (rnd : List ℕ)
    (image : Image RGB8 h w) (saliency_map : Image ℚ hs ws)
    (px : List Lab) (sl : List ℚ)
    (hok : samplePixels ((flattenImg image).map (fun c => labScale (cvt2lab c)))
      (flattenImg saliency_map) rnd = Except.ok (px, sl))
    (hne : px ≠ []) :
    extract_palette cvt2lab cvtBack rnd image saliency_map =
      Except.ok ((selectColors px sl).map
        (fun s => { RGB := lab_to_rgb cvtBack s.1, Weight := s.2 })) := by
  unfold extract_palette
  simp only []
  have hie : px.isEmpty = false := by
    cases px
    · exact absurd rfl hne
    · rfl
  simp [hok, hie]

theorem extract_palette_error {h w hs ws : ℕ} (cvt2lab : RGB8 → ℕ × ℕ × ℕ)
    (cvtBack : ℕ × ℕ × ℕ → RGB8) (rnd : List ℕ)
    (image : Image RGB8 h w) (saliency_map : Image ℚ hs ws) (e : String)
    (herr : samplePixels ((flattenImg image).map (fun c => labScale (cvt2lab c)))
      (flattenImg saliency_map) rnd = Except.error e) :
    extract_palette cvt2lab cvtBack rnd image saliency_map = Except.error e := by
  unfold extract_palette
  simp only []
  simp [herr]

set_option maxHeartbeats 1000000 in
/-- C2.  For every input image and saliency field whose values are
saliency weights (nonnegative, as the spec's saliency-field data model
requires) and that leave at least 5 candidate pixels in the pool after the
sampling stage, `extract_palette` succeeds and returns a palette of
exactly 5 entries, regardless of the image's size. -/
theorem C2_palette_cardinality {h w hs ws : ℕ} (cvt2lab : RGB8 → ℕ × ℕ × ℕ)
    (cvtBack : ℕ × ℕ × ℕ → RGB8) (rnd : List ℕ)
    (image : Image RGB8 h w) (saliency_map : Image ℚ hs ws)
    (px : List Lab) (sl : List ℚ)
    (hnn : ∀ i j, 0 ≤ saliency_map i j)
    (hok : samplePixels ((flattenImg image).map (fun c => labScale (cvt2lab c)))
      (flattenImg saliency_map) rnd = Except.ok (px, sl))
    (h5 : 5 ≤ px.length) :
    ∃ pal, extract_palette cvt2lab cvtBack rnd image saliency_map = Except.ok pal ∧
      pal.length = 5 := by
  obtain ⟨hleq, hmem⟩ := samplePixels_ok_facts hok
  have hwnn : ∀ x ∈ sl, 0 ≤ x := by
    intro x hx
    rcases hmem x hx with hx' | rfl
    · obtain ⟨i, j, rfl⟩ := mem_flattenImg hx'
      exact hnn i j
    · exact le_refl 0
  refine ⟨(selectColors px sl).map
      (fun s => { RGB := lab_to_rgb cvtBack s.1, Weight := s.2 }), ?_, ?_⟩
  · have hne : px ≠ [] := List.ne_nil_of_length_pos (by omega)
    exact extract_palette_ok cvt2lab cvtBack rnd image saliency_map px sl hok hne
  · rw [List.length_map]
    exact selectColors_length px sl hleq h5 hwnn

/-- C5 (amended).  When the flattened pixel counts of the image and the
saliency field differ, `extract_palette` raises (numpy's boolean-mask
length error, or the empty-percentile error); the counterexample below
shows that mismatched spatial dimensions with equal pixel counts are
accepted silently, so the claim's fail-fast guarantee holds only at the
granularity of total pixel counts. -/
theorem C5_amended_mismatch_error {h w hs ws : ℕ} (cvt2lab : RGB8 → ℕ × ℕ × ℕ)
    (cvtBack : ℕ × ℕ × ℕ → RGB8) (rnd : List ℕ)
    (image : Image RGB8 h w) (saliency_map : Image ℚ hs ws)
    (hne : h * w ≠ hs * ws) :
    ∃ e, extract_palette cvt2lab cvtBack rnd image saliency_map = Except.error e := by
  obtain ⟨e, he⟩ := samplePixels_len_ne
    ((flattenImg image).map (fun c => labScale (cvt2lab c)))
    (flattenImg saliency_map) rnd
    (by
      rw [List.length_map, flattenImg_length, flattenImg_length]
      exact hne)
  exact ⟨e, extract_palette_error cvt2lab cvtBack rnd image saliency_map e he⟩

/-- Closed witness for the amended C5 theorem: a 1-by-2 image against a
1-by-1 saliency field raises. -/
theorem C5_amended_mismatch_error_witness :
    ∃ e, extract_palette cv2LabU8_model cv2RGB_model []
      (fun _ _ => (⟨0, 0, 0⟩ : RGB8) : Image RGB8 1 2)
      (fun _ _ => (0 : ℚ) : Image ℚ 1 1) = Except.error e :=
  C5_amended_mismatch_error cv2LabU8_model cv2RGB_model [] _ _ (by decide)

/-! ### Scale invariance of the comparator with a fixed positive weight -/

theorem klt_posw (u x y : ℚ) (hu : 0 < u) (hx : 0 ≤ x) (hy : 0 ≤ y) :
    klt (u, x) (u, y) = decide (x < y) := by
  unfold klt
  have h1 : ¬((u, x).1 < 0 ∧ 0 < (u, x).2) := fun hc => absurd hc.1 (not_lt.mpr hu.le)
  by_cases hx0 : 0 < x
  · rw [if_neg h1, if_pos ⟨hu, hx0⟩]
    by_cases hy0 : 0 < y
    · rw [if_pos ⟨hu, hy0⟩]
      exact decide_eq_decide.mpr (mul_lt_mul_left (pow_pos hu 2))
    · rw [if_neg (fun hc => hy0 hc.2)]
      have hyx : ¬ (x < y) := fun hlt => hy0 (lt_trans hx0 hlt)
      rw [decide_eq_false hyx]
  · rw [if_neg h1, if_neg (fun hc => hx0 hc.2)]
    have hx' : x = 0 := le_antisymm (not_lt.mp hx0) hx
    subst hx'
    exact decide_eq_decide.mpr ⟨fun hc => hc.2, fun hy0 => ⟨hu, hy0⟩⟩

theorem argmaxGo_congr {α κ₁ κ₂ : Type} (f : α → κ₁) (g : α → κ₂)
    (lt1 : κ₁ → κ₁ → Bool) (lt2 : κ₂ → κ₂ → Bool)
    (hfg : ∀ a b : α, lt1 (f a) (f b) = lt2 (g a) (g b)) :
    ∀ (t : List α) (i bi : ℕ) (b : α),
      (argmaxGo lt1 (t.map f) i (bi, f b)).1 = (argmaxGo lt2 (t.map g) i (bi, g b)).1 := by
  intro t
  induction t with
  | nil => intro i bi b; rfl
  | cons x xs ih =>
    intro i bi b
    simp only [List.map_cons, argmaxGo]
    rw [hfg b x]
    by_cases hc : lt2 (g b) (g x) = true
    · rw [if_pos hc, if_pos hc]
      exact ih (i + 1) i x
    · rw [if_neg hc, if_neg hc]
      exact ih (i + 1) bi b

theorem argmaxFold_congr {α κ₁ κ₂ : Type} (f : α → κ₁) (g : α → κ₂)
    (lt1 : κ₁ → κ₁ → Bool) (lt2 : κ₂ → κ₂ → Bool)
    (hfg : ∀ a b : α, lt1 (f a) (f b) = lt2 (g a) (g b)) (l : List α) :
    argmaxFold lt1 (l.map f) = argmaxFold lt2 (l.map g) := by
  cases l with
  | nil => rfl
  | cons x t =>
    simp only [List.map_cons, argmaxFold]
    exact argmaxGo_congr f g lt1 lt2 hfg t 1 0 x

theorem argmaxGo_map_no_update {α κ : Type} (f : α → κ) (ltb : κ → κ → Bool)
    (hf : ∀ a b : α, ltb (f a) (f b) = false) :
    ∀ (t : List α) (i bi : ℕ) (b : α),
      (argmaxGo ltb (t.map f) i (bi, f b)).1 = bi := by
  intro t
  induction t with
  | nil => intro i bi b; rfl
  | cons x xs ih =>
    intro i bi b
    simp only [List.map_cons, argmaxGo]
    rw [hf b x]
    simp only [Bool.false_eq_true, if_false]
    exact ih (i + 1) bi b

theorem argmaxFold_map_no_update {α κ : Type} (f : α → κ) (ltb : κ → κ → Bool)
    (hf : ∀ a b : α, ltb (f a) (f b) = false) (l : List α) :
    argmaxFold ltb (l.map f) = 0 := by
  cases l with
  | nil => rfl
  | cons x t =>
    simp only [List.map_cons, argmaxFold]
    exact argmaxGo_map_no_update f ltb hf t 1 0 x

/-- C10.  The second-seed choice is invariant under the first seed's
weight as long as that weight is positive: the scan over
`weighted_lab_distance(p, p1, w)` picks the same index for every positive
`w`; and with weight `0` all distances vanish, so `np.argmax` returns the
first candidate in scan order. -/
theorem C10_second_seed_scale_invariance (pixels : List Lab) (p1 : Lab) (w w' : ℚ)
    (hw : 0 < w) (hw' : 0 < w') :
    seedTwoIdx pixels p1 w = seedTwoIdx pixels p1 w' ∧ seedTwoIdx pixels p1 0 = 0 := by
  constructor
  · unfold seedTwoIdx
    apply argmaxFold_congr (fun p => (w, dsq p p1)) (fun p => (w', dsq p p1)) klt klt
    intro a b
    rw [klt_posw w (dsq a p1) (dsq b p1) hw (dsq_nonneg _ _) (dsq_nonneg _ _),
      klt_posw w' (dsq a p1) (dsq b p1) hw' (dsq_nonneg _ _) (dsq_nonneg _ _)]
  · unfold seedTwoIdx
    apply argmaxFold_map_no_update (fun p => ((0 : ℚ), dsq p p1)) klt
    intro a b
    unfold klt
    simp

/-- Closed witness for C10 at a concrete two-pixel pool and weights 1, 2. -/
theorem C10_second_seed_scale_invariance_witness :
    seedTwoIdx [labJunk, (1, 2, 3)] labJunk 1 = seedTwoIdx [labJunk, (1, 2, 3)] labJunk 2 ∧
      seedTwoIdx [labJunk, (1, 2, 3)] labJunk 0 = 0 :=
  C10_second_seed_scale_invariance [labJunk, (1, 2, 3)] labJunk 1 2
    (by norm_num) (by norm_num)

/-- C6 (amended).  The weighted distance factors as the weight of the
first argument times a symmetric base distance, so it is asymmetric in
general; the two oppositely-ordered calls agree exactly when the two
weights are equal or the two Lab samples coincide (zero base distance),
not only when the weights match. -/
theorem C6_weighted_distance_asymmetry :
    (∀ (p q : Lab) (w w' : ℚ),
      weighted_lab_distance p q w = weighted_lab_distance q p w' ↔ (w = w' ∨ p = q)) ∧
    (∀ (p q : Lab) (w : ℚ),
      weighted_lab_distance p q w = (w : ℝ) * weighted_lab_distance p q 1) ∧
    weighted_lab_distance (0, 0, 0) (0, 0, 1) 2 ≠
      weighted_lab_distance (0, 0, 1) (0, 0, 0) 3 := by
  refine ⟨?_, ?_, ?_⟩
  · intro p q w w'
    unfold weighted_lab_distance
    rw [dsq_symm q p]
    constructor
    · intro heq
      by_cases hd : dsq p q = 0
      · exact Or.inr ((dsq_eq_zero_iff p q).mp hd)
      · left
        have hpos : 0 < Real.sqrt ((dsq p q : ℚ) : ℝ) := Real.sqrt_pos.mpr (by
          have := lt_of_le_of_ne (dsq_nonneg p q) (Ne.symm hd)
          exact_mod_cast this)
        have := mul_right_cancel₀ (ne_of_gt hpos) heq
        exact_mod_cast this
    · rintro (rfl | rfl)
      · rfl
      · have h0 : dsq p p = 0 := (dsq_eq_zero_iff p p).mpr rfl
        rw [h0]
        push_cast
        rw [Real.sqrt_zero]
        ring
  · intro p q w
    unfold weighted_lab_distance
    push_cast
    ring
  · have h1 : dsq ((0 : ℚ), (0 : ℚ), (0 : ℚ)) ((0 : ℚ), (0 : ℚ), (1 : ℚ)) = 1 := by
      norm_num [dsq]
    have h2 : dsq ((0 : ℚ), (0 : ℚ), (1 : ℚ)) ((0 : ℚ), (0 : ℚ), (0 : ℚ)) = 1 := by
      norm_num [dsq]
    unfold weighted_lab_distance
    rw [h1, h2]
    push_cast
    rw [Real.sqrt_one]
    norm_num

/-- C6 counterexample: with coincident Lab samples the two
oppositely-ordered calls are equal although the weights differ, refuting
"equal only when the weight passed equals the weight of the reversed
call" as universally stated. -/
theorem C6_counterexample :
    weighted_lab_distance labJunk labJunk 1 = weighted_lab_distance labJunk labJunk 2 ∧
      (1 : ℚ) ≠ 2 := by
  constructor
  · have h0 : dsq labJunk labJunk = 0 := (dsq_eq_zero_iff _ _).mpr rfl
    unfold weighted_lab_distance
    rw [h0]
    push_cast
    rw [Real.sqrt_zero]
    ring
  · norm_num

/-- Closed witness for the amended C6 theorem: equal weights give equal
oppositely-ordered distances at a concrete pair of samples. -/
theorem C6_weighted_distance_asymmetry_witness :
    weighted_lab_distance ((0 : ℚ), (0 : ℚ), (0 : ℚ)) ((0 : ℚ), (0 : ℚ), (1 : ℚ)) 2 =
      weighted_lab_distance ((0 : ℚ), (0 : ℚ), (1 : ℚ)) ((0 : ℚ), (0 : ℚ), (0 : ℚ)) 2 :=
  (C6_weighted_distance_asymmetry.1 _ _ 2 2).mpr (Or.inl rfl)

/-- C3.  On every candidate pool with matching lengths, at least five
pixels and nonnegative saliency weights, the selection stage picks its
palette in exactly the claimed order: first seed = first candidate of
maximal weight, second seed = first candidate of maximal weighted
distance from seed 1 (weighted by seed 1's weight), both seed indices
removed, then three greedy max-min rounds with first-occurrence
tie-breaking, each removing its winner from the pool. -/
theorem C3_selection_order (pixels : List Lab) (sal : List ℚ)
    (hlen : pixels.length = sal.length) (h5 : 5 ≤ pixels.length)
    (hw : ∀ x ∈ sal, 0 ≤ x) : SelSpec pixels sal :=
  selectColors_spec pixels sal hlen h5 hw

/-- Closed witness for C3 at the concrete 7-candidate pool. -/
theorem C3_selection_order_witness : SelSpec pxLabC7 slC7 :=
  C3_selection_order pxLabC7 slC7 rfl (by decide)
    (by
      intro x hx
      simp [slC7] at hx
      rw [hx]
      norm_num)

/-- C7 (amended).  Each greedy round is locally optimal: the candidate it
selects maximizes (with first-occurrence tie-breaking) the minimum
weighted distance to the already-selected entries over the remaining
pool.  The original claim's global bound over every 5-subset containing
the seed pair is refuted by `C7_counterexample`. -/
theorem C7_amended_round_local_optimality (pixels : List Lab) (sal : List ℚ)
    (hlen : pixels.length = sal.length) (h5 : 5 ≤ pixels.length)
    (hw : ∀ x ∈ sal, 0 ≤ x) :
    ∃ i1 i2 i3 i4 i5,
      (let s1 : Lab × ℚ := (pixels.getD i1 labJunk, sal.getD i1 0)
       let s2 : Lab × ℚ := (pixels.getD i2 labJunk, sal.getD i2 0)
       let pool0 := removeSeeds (pixels.zip sal) i1 i2
       let c3 := pool0.getD i3 junkE
       let pool1 := pool0.eraseIdx i3
       let c4 := pool1.getD i4 junkE
       let pool2 := pool1.eraseIdx i4
       let c5 := pool2.getD i5 junkE
       GreedyPick [s1, s2] pool0 i3 c3 ∧
       GreedyPick [s1, s2, c3] pool1 i4 c4 ∧
       GreedyPick [s1, s2, c3, c4] pool2 i5 c5 ∧
       selectColors pixels sal = [s1, s2, c3, c4, c5]) := by
  obtain ⟨i1, i2, i3, i4, i5, _, _, hg3, hg4, hg5, heq⟩ :=
    selectColors_spec pixels sal hlen h5 hw
  exact ⟨i1, i2, i3, i4, i5, hg3, hg4, hg5, heq⟩

/-- Closed witness for the amended C7 theorem at the concrete pool. -/
theorem C7_amended_round_local_optimality_witness :
    ∃ i1 i2 i3 i4 i5,
      (let s1 : Lab × ℚ := (pxLabC7.getD i1 labJunk, slC7.getD i1 0)
       let s2 : Lab × ℚ := (pxLabC7.getD i2 labJunk, slC7.getD i2 0)
       let pool0 := removeSeeds (pxLabC7.zip slC7) i1 i2
       let c3 := pool0.getD i3 junkE
       let pool1 := pool0.eraseIdx i3
       let c4 := pool1.getD i4 junkE
       let pool2 := pool1.eraseIdx i4
       let c5 := pool2.getD i5 junkE
       GreedyPick [s1, s2] pool0 i3 c3 ∧
       GreedyPick [s1, s2, c3] pool1 i4 c4 ∧
       GreedyPick [s1, s2, c3, c4] pool2 i5 c5 ∧
       selectColors pxLabC7 slC7 = [s1, s2, c3, c4, c5]) :=
  C7_amended_round_local_optimality pxLabC7 slC7 rfl (by decide)
    (by
      intro x hx
      simp [slC7] at hx
      rw [hx]
      norm_num)

/-- C4.  The sampling stage keeps exactly the pixels whose saliency is
strictly between the 20th and 80th percentiles of the saliency values;
when fewer than 250 survive it instead keeps exactly the pixels strictly
above the 70th percentile; and when fewer than 5 then remain it abandons
filtering and returns the pixels at the injected random indices (numpy's
uniform sample without replacement of size `min(1000, n)`), each paired
with its own saliency value. -/
theorem C4_sampler_stages (pixels : List Lab) (sal : List ℚ) (rnd : List ℕ)
    (hlen : pixels.length = sal.length) (hne : sal ≠ []) :
    (let band := (pixels.zip sal).filter
       (fun pr => decide (percentile sal 20 < pr.2) && decide (pr.2 < percentile sal 80))
     let hi := (pixels.zip sal).filter (fun pr => decide (percentile sal 70 < pr.2))
     if 250 ≤ band.length then
       samplePixels pixels sal rnd = Except.ok (band.map Prod.fst, band.map Prod.snd)
     else if 5 ≤ hi.length then
       samplePixels pixels sal rnd = Except.ok (hi.map Prod.fst, hi.map Prod.snd)
     else
       samplePixels pixels sal rnd =
         Except.ok (rnd.map (fun i => pixels.getD i labJunk),
                    rnd.map (fun i => sal.getD i 0))) := by
  have hem : sal.isEmpty = false := by
    cases sal
    · exact absurd rfl hne
    · rfl
  have hc1 : ∀ p : ℚ → Bool,
      ((pixels.zip sal).filter (fun pr => p pr.2)).length = (sal.map p).count true := by
    intro p
    have h1 := congrArg List.length (filter_zip_mask_fst pixels sal p hlen)
    simp only [List.length_map] at h1
    rw [← h1]
    exact zip_filter_true_length pixels (sal.map p) (by simpa using hlen)
  have hA := boolIndex_mask pixels sal
    (fun s => decide (percentile sal 20 < s) && decide (s < percentile sal 80)) hlen
  have hB := boolIndex_mask_self pixels sal
    (fun s => decide (percentile sal 20 < s) && decide (s < percentile sal 80)) hlen
  have hA70 := boolIndex_mask pixels sal (fun s => decide (percentile sal 70 < s)) hlen
  have hB70 := boolIndex_mask_self pixels sal (fun s => decide (percentile sal 70 < s)) hlen
  simp only []
  by_cases hb : 250 ≤ ((pixels.zip sal).filter
      (fun pr => decide (percentile sal 20 < pr.2) && decide (pr.2 < percentile sal 80))).length
  · rw [if_pos hb]
    unfold samplePixels
    rw [if_neg (by simp [hem])]
    simp only []
    have hcnt : ¬ ((sal.map (fun s =>
        decide (percentile sal 20 < s) && decide (s < percentile sal 80))).count true < 250) := by
      rw [← hc1 (fun s => decide (percentile sal 20 < s) && decide (s < percentile sal 80))]
      omega
    rw [if_neg hcnt]
    simp only [hA, hB]
    rw [if_neg (by
      rw [List.length_map]
      omega)]
  · rw [if_neg hb]
    by_cases hh : 5 ≤ ((pixels.zip sal).filter
        (fun pr => decide (percentile sal 70 < pr.2))).length
    · rw [if_pos hh]
      unfold samplePixels
      rw [if_neg (by simp [hem])]
      simp only []
      have hcnt : (sal.map (fun s =>
          decide (percentile sal 20 < s) && decide (s < percentile sal 80))).count true < 250 := by
        rw [← hc1 (fun s => decide (percentile sal 20 < s) && decide (s < percentile sal 80))]
        simp only [] at hb ⊢
        omega
      rw [if_pos hcnt]
      simp only [hA70, hB70]
      rw [if_neg (by
        rw [List.length_map]
        omega)]
    · rw [if_neg hh]
      unfold samplePixels
      rw [if_neg (by simp [hem])]
      simp only []
      have hcnt : (sal.map (fun s =>
          decide (percentile sal 20 < s) && decide (s < percentile sal 80))).count true < 250 := by
        rw [← hc1 (fun s => decide (percentile sal 20 < s) && decide (s < percentile sal 80))]
        simp only [] at hb ⊢
        omega
      rw [if_pos hcnt]
      simp only [hA70, hB70]
      rw [if_pos (by
        rw [List.length_map]
        omega)]

/-- Closed witness for C4 at the concrete 20-pixel data. -/
theorem C4_sampler_stages_witness :
    (let band := ((pxW.map (fun c => labScale (cv2LabU8_model c))).zip svW).filter
       (fun pr => decide (percentile svW 20 < pr.2) && decide (pr.2 < percentile svW 80))
     let hi := ((pxW.map (fun c => labScale (cv2LabU8_model c))).zip svW).filter
       (fun pr => decide (percentile svW 70 < pr.2))
     if 250 ≤ band.length then
       samplePixels (pxW.map (fun c => labScale (cv2LabU8_model c))) svW [] =
         Except.ok (band.map Prod.fst, band.map Prod.snd)
     else if 5 ≤ hi.length then
       samplePixels (pxW.map (fun c => labScale (cv2LabU8_model c))) svW [] =
         Except.ok (hi.map Prod.fst, hi.map Prod.snd)
     else
       samplePixels (pxW.map (fun c => labScale (cv2LabU8_model c))) svW [] =
         Except.ok ([].map (fun i => (pxW.map (fun c => labScale (cv2LabU8_model c))).getD i labJunk),
                    [].map (fun i => svW.getD i 0))) :=
  C4_sampler_stages (pxW.map (fun c => labScale (cv2LabU8_model c))) svW []
    (by simp [pxW, svW]) (by simp [svW])

/-! ### The saliency pipeline on uniform images and its output range -/

theorem coeff_sum_mul (ker : List (ℤ × ℚ)) (c : ℝ) :
    (ker.map (fun kv => (kv.2 : ℝ) * c)).sum = (((ker.map Prod.snd).sum : ℚ) : ℝ) * c := by
  induction ker with
  | nil => simp
  | cons kv t ih =>
    simp only [List.map_cons, List.sum_cons, ih]
    push_cast
    ring

theorem convH_const {h w : ℕ} (ker : List (ℤ × ℚ)) (f : Image ℝ h w) (c : ℝ)
    (hker : (ker.map Prod.snd).sum = 1) (hf : ∀ i j, f i j = c) :
    ∀ i j, convH ker f i j = c := by
  intro i j
  unfold convH
  rw [List.map_congr_left (fun kv _ => by rw [hf i (reflect101 j kv.1)])]
  rw [coeff_sum_mul, hker]
  push_cast
  ring

theorem convV_const {h w : ℕ} (ker : List (ℤ × ℚ)) (f : Image ℝ h w) (c : ℝ)
    (hker : (ker.map Prod.snd).sum = 1) (hf : ∀ i j, f i j = c) :
    ∀ i j, convV ker f i j = c := by
  intro i j
  unfold convV
  rw [List.map_congr_left (fun kv _ => by rw [hf (reflect101 i kv.1) j])]
  rw [coeff_sum_mul, hker]
  push_cast
  ring

theorem blurWith_const {h w : ℕ} (ker : List (ℤ × ℚ)) (f : Image ℝ h w) (c : ℝ)
    (hker : (ker.map Prod.snd).sum = 1) (hf : ∀ i j, f i j = c) :
    ∀ i j, blurWith ker f i j = c := by
  intro i j
  unfold blurWith
  exact convV_const ker _ c hker (convH_const ker f c hker hf) i j

theorem g5_sum : (g5.map Prod.snd).sum = 1 := by norm_num [g5]

theorem g3_sum : (g3.map Prod.snd).sum = 1 := by norm_num [g3]

theorem laplacian_const {h w : ℕ} (f : Image ℝ h w) (c : ℝ)
    (hf : ∀ i j, f i j = c) : ∀ i j, laplacian f i j = 0 := by
  intro i j
  unfold laplacian
  rw [hf, hf, hf, hf, hf]
  ring

theorem cvNormalize_const {h w : ℕ} (f : Image ℝ h w) (c : ℝ)
    (hf : ∀ i j, f i j = c) : ∀ i j, cvNormalize f i j = 0 := by
  intro i j
  unfold cvNormalize
  simp only []
  have hM : (Finset.univ.sup' ⟨(i, j), Finset.mem_univ _⟩
      (fun p : Fin h × Fin w => f p.1 p.2)) = c := by
    rw [Finset.sup'_congr ⟨(i, j), Finset.mem_univ _⟩ rfl (fun p _ => hf p.1 p.2)]
    exact Finset.sup'_const _ c
  have hm : (Finset.univ.inf' ⟨(i, j), Finset.mem_univ _⟩
      (fun p : Fin h × Fin w => f p.1 p.2)) = c := by
    rw [Finset.inf'_congr ⟨(i, j), Finset.mem_univ _⟩ rfl (fun p _ => hf p.1 p.2)]
    exact Finset.inf'_const _ c
  rw [hM, hm, if_pos rfl]

theorem cvNormalize_mem {h w : ℕ} (f : Image ℝ h w) (i : Fin h) (j : Fin w) :
    0 ≤ cvNormalize f i j ∧ cvNormalize f i j ≤ 1 := by
  unfold cvNormalize
  simp only []
  by_cases hMm : (Finset.univ.sup' ⟨(i, j), Finset.mem_univ _⟩
      (fun p : Fin h × Fin w => f p.1 p.2)) =
      (Finset.univ.inf' ⟨(i, j), Finset.mem_univ _⟩ (fun p : Fin h × Fin w => f p.1 p.2))
  · rw [if_pos hMm]
    exact ⟨le_refl 0, zero_le_one⟩
  · rw [if_neg hMm]
    have hle : (Finset.univ.inf' ⟨(i, j), Finset.mem_univ _⟩
        (fun p : Fin h × Fin w => f p.1 p.2)) ≤ f i j :=
      Finset.inf'_le (fun p : Fin h × Fin w => f p.1 p.2) (Finset.mem_univ (i, j))
    have hge : f i j ≤ (Finset.univ.sup' ⟨(i, j), Finset.mem_univ _⟩
        (fun p : Fin h × Fin w => f p.1 p.2)) :=
      Finset.le_sup' (fun p : Fin h × Fin w => f p.1 p.2) (Finset.mem_univ (i, j))
    have hlt : (Finset.univ.inf' ⟨(i, j), Finset.mem_univ _⟩
        (fun p : Fin h × Fin w => f p.1 p.2)) <
        (Finset.univ.sup' ⟨(i, j), Finset.mem_univ _⟩ (fun p : Fin h × Fin w => f p.1 p.2)) :=
      lt_of_le_of_ne (le_trans hle hge) (fun hc => hMm hc.symm)
    constructor
    · exact div_nonneg (by linarith) (by linarith)
    · rw [div_le_one (by linarith)]
      linarith

theorem mean_const_div {h w : ℕ} (i : Fin h) (j : Fin w) (x : ℝ) :
    (Finset.univ.sum (fun _ : Fin h × Fin w => x)) / ((h : ℝ) * (w : ℝ)) = x := by
  rw [Finset.sum_const, Finset.card_univ, Fintype.card_prod, Fintype.card_fin,
    Fintype.card_fin, nsmul_eq_mul]
  rw [Nat.cast_mul]
  refine mul_div_cancel_left₀ x ?_
  have := Nat.mul_pos i.pos j.pos
  exact_mod_cast this.ne'

theorem frequency_tuned_saliency_uniform {h w : ℕ} (cvtL : RGB8 → ℚ × ℚ × ℚ)
    (c0 : RGB8) : ∀ (i : Fin h) (j : Fin w),
    frequency_tuned_saliency cvtL (fun _ _ => c0) i j = 0 := by
  intro i j
  unfold frequency_tuned_saliency
  simp only []
  refine cvNormalize_const _ 0 ?_ i j
  intro i' j'
  rw [blurWith_const g5 _ (((cvtL c0).1 : ℝ)) g5_sum (fun _ _ => rfl) i' j',
    blurWith_const g5 _ (((cvtL c0).2.1 : ℝ)) g5_sum (fun _ _ => rfl) i' j',
    blurWith_const g5 _ (((cvtL c0).2.2 : ℝ)) g5_sum (fun _ _ => rfl) i' j',
    mean_const_div i j, mean_const_div i j, mean_const_div i j]
  simp [Real.sqrt_zero]

theorem graph_based_saliency_uniform {h w : ℕ} (cvtG : RGB8 → ℚ)
    (c0 : RGB8) : ∀ (i : Fin h) (j : Fin w),
    graph_based_saliency cvtG (fun _ _ => c0) i j = 0 := by
  intro i j
  unfold graph_based_saliency
  simp only []
  refine cvNormalize_const _ 0 ?_ i j
  intro i' j'
  rw [laplacian_const _ ((cvtG c0 : ℚ) : ℝ)
    (blurWith_const g3 _ _ g3_sum (fun _ _ => rfl)) i' j']
  simp

theorem ccs_uniform {h w : ℕ} (cvtL : RGB8 → ℚ × ℚ × ℚ) (cvtG : RGB8 → ℚ)
    (c0 : RGB8) : ∀ (i : Fin h) (j : Fin w),
    compute_combined_saliency cvtL cvtG (fun _ _ => c0) i j = 0 := by
  intro i j
  unfold compute_combined_saliency
  refine cvNormalize_const _ 0 ?_ i j
  intro i' j'
  refine blurWith_const g5 _ 0 g5_sum ?_ i' j'
  intro i'' j''
  rw [graph_based_saliency_uniform cvtG c0 i'' j'',
    frequency_tuned_saliency_uniform cvtL c0 i'' j'']
  norm_num

/-- C1 (amended).  For every uniform-color input image (and every
per-pixel Lab and grayscale conversion), `compute_combined_saliency`
returns the field constant at 0, not 0.5: the pipeline normalizes with
`cv2.normalize`, which sends a flat field to its lower bound 0; the
0.5-on-flat behavior belongs to `normalize_map` in utils.py, which the
saliency pipeline never calls. -/
theorem C1_uniform_saliency_zero {h w : ℕ} (cvtL : RGB8 → ℚ × ℚ × ℚ)
    (cvtG : RGB8 → ℚ) (c0 : RGB8) (i : Fin h) (j : Fin w) :
    compute_combined_saliency cvtL cvtG (fun _ _ => c0) i j = 0 :=
  ccs_uniform cvtL cvtG c0 i j

/-- C1 counterexample: on a concrete uniform 2-by-2 image the combined
saliency at pixel (0,0) is not 0.5. -/
theorem C1_counterexample :
    compute_combined_saliency cv2Lab_model cv2Gray_model
      (fun _ _ => (⟨200, 30, 60⟩ : RGB8) : Image RGB8 2 2) 0 0 ≠ (1 / 2 : ℝ) := by
  rw [ccs_uniform cv2Lab_model cv2Gray_model ⟨200, 30, 60⟩ 0 0]
  norm_num

/-- Closed witness for the amended C1 theorem at a concrete uniform
image. -/
theorem C1_uniform_saliency_zero_witness :
    compute_combined_saliency cv2Lab_model cv2Gray_model
      (fun _ _ => (⟨7, 7, 7⟩ : RGB8) : Image RGB8 3 4) 0 0 = 0 :=
  C1_uniform_saliency_zero cv2Lab_model cv2Gray_model ⟨7, 7, 7⟩ 0 0

/-- C8.  For every input image (of any nonzero size, witnessed by the
pixel coordinates) and every per-pixel conversion, the combined saliency
field has the same height and width as the image by construction of its
type, and every value lies in the closed interval from 0 to 1. -/
theorem C8_saliency_range {h w : ℕ} (cvtL : RGB8 → ℚ × ℚ × ℚ) (cvtG : RGB8 → ℚ)
    (image : Image RGB8 h w) (i : Fin h) (j : Fin w) :
    0 ≤ compute_combined_saliency cvtL cvtG image i j ∧
      compute_combined_saliency cvtL cvtG image i j ≤ 1 := by
  unfold compute_combined_saliency
  exact cvNormalize_mem _ i j

/-- Closed witness for C8 at a concrete image. -/
theorem C8_saliency_range_witness :
    0 ≤ compute_combined_saliency cv2Lab_model cv2Gray_model
      (fun _ j => (⟨j, 0, 0⟩ : RGB8) : Image RGB8 1 3) 0 1 ∧
      compute_combined_saliency cv2Lab_model cv2Gray_model
      (fun _ j => (⟨j, 0, 0⟩ : RGB8) : Image RGB8 1 3) 0 1 ≤ 1 :=
  C8_saliency_range cv2Lab_model cv2Gray_model _ 0 1

/-! ### Evaluation of the sampler on the concrete 20-pixel data -/

theorem sortAsc_svW : sortAsc svW = svW := by
  norm_num [sortAsc, insertSorted, svW]

theorem p20W : percentile svW 20 = 0 := by
  unfold percentile
  rw [sortAsc_svW]
  have h1 : ((20 : ℚ) * ((svW.length : ℚ) - 1) / 100) = 19/5 := by norm_num [svW]
  rw [h1]
  simp only []
  have h2 : (⌊(19/5 : ℚ)⌋ : ℤ) = 3 := by norm_num
  rw [h2]
  norm_num [show svW[Int.toNat 3]? = some (0 : ℚ) from rfl,
    show svW[Int.toNat 3 + 1]? = some (0 : ℚ) from rfl]

theorem p80W : percentile svW 80 = 1 := by
  unfold percentile
  rw [sortAsc_svW]
  have h1 : ((80 : ℚ) * ((svW.length : ℚ) - 1) / 100) = 76/5 := by norm_num [svW]
  rw [h1]
  simp only []
  have h2 : (⌊(76/5 : ℚ)⌋ : ℤ) = 15 := by norm_num
  rw [h2]
  norm_num [show svW[Int.toNat 15]? = some (1 : ℚ) from rfl,
    show svW[Int.toNat 15 + 1]? = some (1 : ℚ) from rfl]

theorem p70W : percentile svW 70 = 0 := by
  unfold percentile
  rw [sortAsc_svW]
  have h1 : ((70 : ℚ) * ((svW.length : ℚ) - 1) / 100) = 133/10 := by norm_num [svW]
  rw [h1]
  simp only []
  have h2 : (⌊(133/10 : ℚ)⌋ : ℤ) = 13 := by norm_num
  rw [h2]
  norm_num [show svW[Int.toNat 13]? = some (0 : ℚ) from rfl,
    show svW[Int.toNat 13 + 1]? = some (0 : ℚ) from rfl]

theorem sampler_eval_W :
    samplePixels (pxW.map (fun c => labScale (cv2LabU8_model c))) svW [] =
      Except.ok (pxWsel, [1, 1, 1, 1, 1]) := by
  unfold samplePixels
  rw [if_neg (by decide)]
  simp only []
  simp only [p20W, p80W, p70W]
  norm_num [svW, pxW, pxWsel, boolIndex, cv2LabU8_model, labScale, List.count_cons]

/-- Closed witness for C2: the 1-by-20 test image with the two-level
saliency field yields a 5-entry palette. -/
theorem C2_palette_cardinality_witness :
    ∃ pal, extract_palette cv2LabU8_model cv2RGB_model []
      (listImage pxW) (listImage svW) = Except.ok pal ∧ pal.length = 5 := by
  apply C2_palette_cardinality cv2LabU8_model cv2RGB_model []
    (listImage pxW) (listImage svW) pxWsel [1, 1, 1, 1, 1]
  · intro i j
    have hall : ∀ x ∈ svW, (0 : ℚ) ≤ x := by
      intro x hx
      simp [svW] at hx
      rcases hx with h | h <;> rw [h] <;> norm_num
    exact hall _ (List.get_mem svW j.1 j.2)
  · rw [flatten_listImage, flatten_listImage]
    exact sampler_eval_W
  · norm_num [pxWsel]

/-- C5 counterexample: a 1-by-20 image against a 20-by-1 saliency field
has mismatched spatial dimensions but equal pixel counts, and
`extract_palette` silently succeeds on the misaligned data instead of
failing fast. -/
theorem C5_counterexample :
    ((1 : ℕ), pxW.length) ≠ (svW.length, (1 : ℕ)) ∧
      isOkE (extract_palette cv2LabU8_model cv2RGB_model []
        (listImage pxW) (colImage svW)) = true := by
  refine ⟨by decide, ?_⟩
  have hok := extract_palette_ok cv2LabU8_model cv2RGB_model []
    (listImage pxW) (colImage svW) pxWsel [1, 1, 1, 1, 1]
    (by rw [flatten_listImage, flatten_colImage]; exact sampler_eval_W)
    (by simp [pxWsel])
  rw [hok]
  rfl

/-! ### Refutation of global greedy optimality (C7) -/

/-- The first component of any scan-order pair is an element of the list. -/
theorem pairList_fst_mem {α : Type} {l : List α} {pq : α × α} (h : pq ∈ pairList l) :
    pq.1 ∈ l := by
  induction l with
  | nil => simp [pairList] at h
  | cons x t ih =>
    simp only [pairList, List.mem_append, List.mem_map] at h
    rcases h with ⟨y, _, hy⟩ | h
    · rw [← hy]; exact List.mem_cons_self x t
    · exact List.mem_cons_of_mem x (ih h)

/-- A running minimum commutes with the monotone map `q ↦ sqrt q`. -/
theorem foldl_min_sqrt (t : List ℚ) (v : ℚ) :
    (t.map (fun q => Real.sqrt ((q : ℚ) : ℝ))).foldl min (Real.sqrt ((v : ℚ) : ℝ))
      = Real.sqrt (((t.foldl min v : ℚ) : ℝ)) := by
  induction t generalizing v with
  | nil => rfl
  | cons x xs ih =>
    rw [List.map_cons, List.foldl_cons, List.foldl_cons, ← ih (min v x)]
    congr 1
    have hmono : Monotone (fun q : ℚ => Real.sqrt ((q : ℚ) : ℝ)) :=
      fun a b hab => Real.sqrt_le_sqrt (by exact_mod_cast hab)
    exact (hmono.map_min).symm

/-- List minimum commutes with `q ↦ sqrt q` (both conventions send `[]` to 0). -/
theorem minFold_sqrt (t : List ℚ) :
    minFoldR (t.map (fun q => Real.sqrt ((q : ℚ) : ℝ)))
      = Real.sqrt ((minFoldQ t : ℚ) : ℝ) := by
  cases t with
  | nil => simp [minFoldR, minFoldQ]
  | cons v xs =>
    rw [List.map_cons]
    simp only [minFoldR, minFoldQ]
    exact foldl_min_sqrt xs v

/-- On a pool whose weights are all 1, the minimum pairwise weighted
distance is the square root of the minimum pairwise squared distance. -/
theorem minPairWD_ones (l : List (Lab × ℚ)) (h1 : ∀ e ∈ l, e.2 = 1) :
    minPairWD l = Real.sqrt ((minPairDsq l : ℚ) : ℝ) := by
  unfold minPairWD minPairDsq
  have hcongr : (pairList l).map (fun pq => weighted_lab_distance pq.1.1 pq.2.1 pq.1.2)
      = (pairList l).map (fun pq => Real.sqrt ((dsq pq.1.1 pq.2.1 : ℚ) : ℝ)) := by
    apply List.map_congr_left
    intro pq hpq
    have hw : pq.1.2 = 1 := h1 pq.1 (pairList_fst_mem hpq)
    unfold weighted_lab_distance
    rw [hw, Rat.cast_one, one_mul]
  have hmm : (pairList l).map (fun pq => Real.sqrt ((dsq pq.1.1 pq.2.1 : ℚ) : ℝ))
      = ((pairList l).map (fun pq => dsq pq.1.1 pq.2.1)).map
          (fun q => Real.sqrt ((q : ℚ) : ℝ)) := by
    rw [List.map_map]
    rfl
  rw [hcongr, hmm, minFold_sqrt]

/-- Concrete evaluation of the selection stage on the pool `pxLabC7`:
seed 1 is index 0 (all weights tie, first occurrence), seed 2 is index 5,
and the three greedy rounds pick indices 2, 6 and 4 of the original pool. -/
theorem selC7_eval :
    selectColors pxLabC7 slC7 =
      [((0, 7, 6), 1), ((0, 2, -8), 1), ((0, -4, 5), 1), ((0, 2, 2), 1), ((0, 2, -5), 1)] := by
  norm_num [selectColors, seedTwoIdx, argmaxFold, argmaxGo, qlt, klt, dsq, removeSeeds,
    greedyStep, pickBest, pickGo, candKey, junkE, labJunk, pxLabC7, slC7,
    List.enum, List.enumFrom, List.eraseIdx, List.getD]

/-- C7 counterexample: on the pool `pxLabC7` with unit weights, `altC7` is
a 5-subset of the same candidate pool containing both seeds chosen by the
algorithm, yet its minimum pairwise weighted distance (`sqrt 10`) strictly
exceeds that of the greedily selected palette (`sqrt 9`): the greedy
max-min selection is not globally optimal for a fixed seed pair. -/
theorem C7_counterexample :
    altC7.length = 5 ∧ altC7.Nodup ∧ (∀ e ∈ altC7, e ∈ pxLabC7.zip slC7) ∧
      (selectColors pxLabC7 slC7).getD 0 junkE ∈ altC7 ∧
      (selectColors pxLabC7 slC7).getD 1 junkE ∈ altC7 ∧
      minPairWD (selectColors pxLabC7 slC7) < minPairWD altC7 := by
  refine ⟨rfl, by norm_num [altC7], ?_, ?_, ?_, ?_⟩
  · intro e he
    simp only [altC7, List.mem_cons, List.not_mem_nil, or_false] at he
    rcases he with h | h | h | h | h <;> subst h <;> norm_num [pxLabC7, slC7]
  · rw [selC7_eval]; norm_num [altC7]
  · rw [selC7_eval]; norm_num [altC7]
  · have h1g : ∀ e ∈ selectColors pxLabC7 slC7, e.2 = 1 := by
      rw [selC7_eval]
      intro e he
      simp only [List.mem_cons, List.not_mem_nil, or_false] at he
      rcases he with h | h | h | h | h <;> subst h <;> rfl
    have h1a : ∀ e ∈ altC7, e.2 = 1 := by
      intro e he
      simp only [altC7, List.mem_cons, List.not_mem_nil, or_false] at he
      rcases he with h | h | h | h | h <;> subst h <;> rfl
    rw [minPairWD_ones _ h1g, minPairWD_ones _ h1a]
    have hg : minPairDsq (selectColors pxLabC7 slC7) = 9 := by
      rw [selC7_eval]
      norm_num [minPairDsq, minFoldQ, pairList, dsq, min_def]
    have ha : minPairDsq altC7 = 10 := by
      norm_num [minPairDsq, minFoldQ, pairList, dsq, min_def, altC7]
    rw [hg, ha]
    have h9 : (0 : ℝ) ≤ ((9 : ℚ) : ℝ) := by norm_num
    have h910 : ((9 : ℚ) : ℝ) < ((10 : ℚ) : ℝ) := by norm_num
    exact Real.sqrt_lt_sqrt h9 h910
